import Mathlib

/-!
Verification development for the unitypackage-to-upm entry reassembly engine.

The definitions below are a shallow embedding of src/unity_package.rs and
src/main.rs.  Byte strings (tar member contents, paths, identifiers) are
modelled as lists of characters (abbrev Chars); fallible reads are modelled
by Option: a member whose content is none is one whose content cannot be
read (I/O failure, or invalid UTF-8 for a pathname member read with
read_to_string).  The HashMap of per-identifier resolution states is
modelled as an association list.
-/

abbrev Chars := List Char

/-- Member name asset, the binary asset content member of an identifier. -/
def assetStr : Chars := ['a', 's', 's', 'e', 't']

/-- Member name asset.meta, the metadata member of an identifier. -/
def assetMetaStr : Chars := ['a', 's', 's', 'e', 't', '.', 'm', 'e', 't', 'a']

/-- Member name pathname, the member holding the logical asset path. -/
def pathnameStr : Chars := ['p', 'a', 't', 'h', 'n', 'a', 'm', 'e']

/-- Member name preview.png, skipped silently. -/
def previewStr : Chars := ['p', 'r', 'e', 'v', 'i', 'e', 'w', '.', 'p', 'n', 'g']

/-- The suffix .meta appended to the resolved path for metadata output. -/
def metaSuffix : Chars := ['.', 'm', 'e', 't', 'a']

/-- The prefix Assets/ that is stripped from decoded pathname contents. -/
def assetsDir : Chars := ['A', 's', 's', 'e', 't', 's', '/']

/-- const MAX_ASSET_MEM: usize = 32 * 1024 * 1024 (unity_package.rs line 14). -/
def MAX_ASSET_MEM : Nat := 32 * 1024 * 1024

/-- Whether a SpooledTempFile currently holds its data in memory or has
rolled over to a temporary file on disk. -/
inductive SpoolMode where
  | inMemory
  | onDisk
deriving DecidableEq, Repr

/-- Model of tempfile::SpooledTempFile: a write-then-read buffer that keeps
data in memory until the size ceiling is exceeded, then migrates to disk,
preserving all previously written bytes and their order.  pos is the
read/write cursor. -/
structure SpooledTempFile where
  mode : SpoolMode
  data : Chars
  pos : Nat
deriving DecidableEq, Repr

/-- tempfile::spooled_tempfile(MAX_ASSET_MEM): a fresh empty spooled buffer. -/
def spooled_tempfile : SpooledTempFile :=
  { mode := SpoolMode.inMemory, data := [], pos := 0 }

/-- Writing bytes to a spooled buffer: appends to the data, advances the
cursor, and rolls over to disk when the total size exceeds the ceiling. -/
def SpooledTempFile.write (t : SpooledTempFile) (bs : Chars) : SpooledTempFile :=
  let newData := t.data ++ bs
  let newMode :=
    if t.mode = SpoolMode.inMemory ∧ newData.length > MAX_ASSET_MEM then
      SpoolMode.onDisk
    else
      t.mode
  { mode := newMode, data := newData, pos := t.pos + bs.length }

/-- seek(SeekFrom::Start(0)): reposition the cursor to the start. -/
def SpooledTempFile.seekStart (t : SpooledTempFile) : SpooledTempFile :=
  { t with pos := 0 }

/-- Reading a spooled buffer to exhaustion from its current cursor. -/
def SpooledTempFile.readToEnd (t : SpooledTempFile) : Chars :=
  t.data.drop t.pos

/-- buffer_reader (unity_package.rs lines 108-123): copy the member's
content into a fresh spooled buffer and seek it back to the start.  Fails
(none) when reading the content fails. -/
def buffer_reader (content : Option Chars) : Option SpooledTempFile :=
  match content with
  | none => none
  | some bs => some ((spooled_tempfile.write bs).seekStart)

/-- struct AssetParts (unity_package.rs lines 16-20): the optional buffered
asset and metadata payloads held while the identifier's path is unknown. -/
structure AssetParts where
  asset : Option SpooledTempFile
  metadata : Option SpooledTempFile
deriving DecidableEq, Repr

/-- enum ItemStatus (unity_package.rs lines 22-26): the resolution state of
one identifier. -/
inductive ItemStatus where
  | awaitingPath (parts : AssetParts)
  | knownPath (path : Chars)
  | error
deriving DecidableEq, Repr

/-- impl Default for ItemStatus: AwaitingPath with empty parts. -/
def itemDefault : ItemStatus :=
  ItemStatus.awaitingPath { asset := none, metadata := none }

/-- The HashMap<OsString, ItemStatus> of resolution states, modelled as an
association list from identifier to state. -/
abbrev PathTable := List (Chars × ItemStatus)

/-- Lookup of an identifier's state in the table (HashMap::get). -/
def lookupStatus : PathTable → Chars → Option ItemStatus
  | [], _ => none
  | (k, v) :: rest, i => if k = i then some v else lookupStatus rest i

/-- Store a state for an identifier, replacing any previous binding
(HashMap::insert, ignoring the returned previous value). -/
def setStatus : PathTable → Chars → ItemStatus → PathTable
  | [], i, st => [(i, st)]
  | (k, v) :: rest, i, st =>
    if k = i then (i, st) :: rest else (k, v) :: setStatus rest i st

/-- HashMap::entry(id).or_default(): make sure the identifier is bound,
inserting the default state when absent. -/
def ensureKey (p : PathTable) (i : Chars) : PathTable :=
  match lookupStatus p i with
  | some _ => p
  | none => setStatus p i itemDefault

/-- The identifier's state, defaulting to the freshly inserted default when
the identifier is not yet in the table (entry(id).or_default()). -/
def statusOrDefault (p : PathTable) (i : Chars) : ItemStatus :=
  (lookupStatus p i).getD itemDefault

/-- One raw tar entry as seen by the iterator: its entry type (regular file
or not), its decoded path components (none when the path cannot be
decoded), and its content (none when reading the content fails). -/
structure RawEntry where
  isFile : Bool
  path : Option (List Chars)
  content : Option Chars
deriving DecidableEq, Repr

/-- One item of the underlying tar entry sequence: either a header-decoding
failure or an entry. -/
inductive RawItem where
  | headerErr
  | entry (e : RawEntry)
deriving DecidableEq, Repr

/-- The recoverable errors the iterator can surface for a single item. -/
inductive IterError where
  | header
  | path
  | buffer (entryPath : List Chars)
  | pathnameRead (entryPath : List Chars)
deriving DecidableEq, Repr

/-- enum PackageEntryContent (unity_package.rs lines 71-77): content of an
output entry, either a previously filled spooled buffer or a direct
pass-through reader over the still-open archive entry (whose content field
is carried along; reading it can still fail downstream, hence Option). -/
inductive PackageEntryContent where
  | buffer (t : SpooledTempFile)
  | direct (content : Option Chars)
deriving DecidableEq, Repr

/-- Reading an output entry's content stream to exhaustion
(PackageEntryContent::read, unity_package.rs lines 79-89): a buffer reads
back from its cursor; a direct reader yields the member's content, or fails
when that read fails. -/
def contentReadToEnd : PackageEntryContent → Option Chars
  | PackageEntryContent.buffer t => some t.readToEnd
  | PackageEntryContent.direct c => c

/-- struct PackageEntry (unity_package.rs lines 91-97): a resolved output
(path, content) pair.  srcId and srcKind are ghost fields recording which
identifier and which member kind the entry came from; they exist only so
theorems can attribute outputs, and carry no behaviour. -/
structure PackageEntry where
  path : Chars
  content : PackageEntryContent
  srcId : Chars
  srcKind : Chars
deriving DecidableEq, Repr

/-- Strip a leading Assets/ from a decoded pathname; without the prefix the
name is kept unchanged (a diagnostic only), unity_package.rs lines 229-233. -/
def stripAssets (raw : Chars) : Chars :=
  if assetsDir.isPrefixOf raw then raw.drop assetsDir.length else raw

/-- The effect of processing one raw item in the loop body of
PackageEntries::next: skip (continue), surface an error, yield one output,
yield an output while also filling the late slot, or hit an unreachable!
arm (panic).  The late slot data is (path, ghost identifier, buffer). -/
inductive StepOut where
  | skip
  | yieldErr (e : IterError)
  | yieldOk (p : PackageEntry)
  | yieldTwo (p : PackageEntry) (latePath : Chars) (lateId : Chars)
      (lateBuf : SpooledTempFile)
  | panic
deriving DecidableEq, Repr

/-- The member-kind dispatch of PackageEntries::next (unity_package.rs
lines 188-279) for an entry whose path split into exactly (id, part). -/
def dispatchMember (id part : Chars) (content : Option Chars)
    (comps : List Chars) (paths : PathTable) : StepOut × PathTable :=
  if part = previewStr then
    (StepOut.skip, paths)
  else if part = assetStr ∨ part = assetMetaStr then
    let paths1 := ensureKey paths id
    match statusOrDefault paths id with
    | ItemStatus.awaitingPath parts =>
      match buffer_reader content with
      | none => (StepOut.yieldErr (IterError.buffer comps), paths1)
      | some temp =>
        if part = assetStr then
          (StepOut.skip,
            setStatus paths1 id
              (ItemStatus.awaitingPath { parts with asset := some temp }))
        else if part = assetMetaStr then
          (StepOut.skip,
            setStatus paths1 id
              (ItemStatus.awaitingPath { parts with metadata := some temp }))
        else
          (StepOut.panic, paths1)
    | ItemStatus.knownPath p =>
      if part = assetStr then
        (StepOut.yieldOk
          { path := p, content := PackageEntryContent.direct content,
            srcId := id, srcKind := part }, paths1)
      else if part = assetMetaStr then
        (StepOut.yieldOk
          { path := p ++ metaSuffix, content := PackageEntryContent.direct content,
            srcId := id, srcKind := part }, paths1)
      else
        (StepOut.panic, paths1)
    | ItemStatus.error => (StepOut.skip, paths1)
  else if part = pathnameStr then
    match content with
    | none =>
      (StepOut.yieldErr (IterError.pathnameRead comps),
        setStatus paths id ItemStatus.error)
    | some raw =>
      let name := stripAssets raw
      let prev := lookupStatus paths id
      let paths2 := setStatus paths id (ItemStatus.knownPath name)
      match prev with
      | some (ItemStatus.awaitingPath parts) =>
        match parts.asset, parts.metadata with
        | some asset, some metadata =>
          (StepOut.yieldTwo
            { path := name, content := PackageEntryContent.buffer asset,
              srcId := id, srcKind := assetStr }
            (name ++ metaSuffix) id metadata, paths2)
        | some asset, none =>
          (StepOut.yieldOk
            { path := name, content := PackageEntryContent.buffer asset,
              srcId := id, srcKind := assetStr }, paths2)
        | none, some metadata =>
          (StepOut.yieldOk
            { path := name ++ metaSuffix,
              content := PackageEntryContent.buffer metadata,
              srcId := id, srcKind := assetMetaStr }, paths2)
        | none, none => (StepOut.skip, paths2)
      | _ => (StepOut.skip, paths2)
  else
    (StepOut.skip, paths)

/-- One iteration of the loop of PackageEntries::next (unity_package.rs
lines 139-280) on a single raw item: header failures surface an error,
non-file entries are skipped, undecodable paths surface an error, paths
that do not split into exactly two components are skipped, then the member
dispatch runs. -/
def stepEntry (item : RawItem) (paths : PathTable) : StepOut × PathTable :=
  match item with
  | RawItem.headerErr => (StepOut.yieldErr IterError.header, paths)
  | RawItem.entry e =>
    if e.isFile then
      match e.path with
      | none => (StepOut.yieldErr IterError.path, paths)
      | some comps =>
        match comps with
        | [id, part] => dispatchMember id part e.content comps paths
        | _ => (StepOut.skip, paths)
    else
      (StepOut.skip, paths)

/-- The items a single step contributes to the overall output sequence: a
yieldTwo step contributes its immediate entry followed by the late entry
that the next call will return from the Late Slot. -/
def outsOf : StepOut → List (Except IterError PackageEntry)
  | StepOut.skip => []
  | StepOut.yieldErr e => [Except.error e]
  | StepOut.yieldOk p => [Except.ok p]
  | StepOut.yieldTwo p latePath lateId lateBuf =>
    [Except.ok p,
      Except.ok
        { path := latePath, content := PackageEntryContent.buffer lateBuf,
          srcId := lateId, srcKind := assetMetaStr }]
  | StepOut.panic => []

/-- The full output sequence of the iterator in flattened form: process the
raw items in order, concatenating each step's contributions.  A panic (an
unreachable! arm, proved unreachable below) stops the sequence. -/
def processAll : List RawItem → PathTable → List (Except IterError PackageEntry)
  | [], _ => []
  | item :: rest, paths =>
    match stepEntry item paths with
    | (StepOut.skip, paths') => processAll rest paths'
    | (StepOut.yieldErr e, paths') => Except.error e :: processAll rest paths'
    | (StepOut.yieldOk p, paths') => Except.ok p :: processAll rest paths'
    | (StepOut.yieldTwo p latePath lateId lateBuf, paths') =>
      Except.ok p ::
        Except.ok
          { path := latePath, content := PackageEntryContent.buffer lateBuf,
            srcId := lateId, srcKind := assetMetaStr } ::
        processAll rest paths'
    | (StepOut.panic, _) => []

/-- The result of one call to nextLoop: an optional produced item, the
remaining raw items, the updated state table, and the late slot value set
by this call (path, ghost identifier, buffer). -/
structure NextResult where
  out : Option (Except IterError PackageEntry)
  rest : List RawItem
  paths : PathTable
  late : Option (Chars × Chars × SpooledTempFile)
deriving Repr

/-- The loop of PackageEntries::next (unity_package.rs lines 139-280):
pull raw items until one produces an output or an error, or the sequence
is exhausted.  A panic arm (proved unreachable) ends iteration. -/
def nextLoop : List RawItem → PathTable → NextResult
  | [], paths => { out := none, rest := [], paths := paths, late := none }
  | item :: rest, paths =>
    match stepEntry item paths with
    | (StepOut.skip, paths') => nextLoop rest paths'
    | (StepOut.yieldErr e, paths') =>
      { out := some (Except.error e), rest := rest, paths := paths', late := none }
    | (StepOut.yieldOk p, paths') =>
      { out := some (Except.ok p), rest := rest, paths := paths', late := none }
    | (StepOut.yieldTwo p latePath lateId lateBuf, paths') =>
      { out := some (Except.ok p), rest := rest, paths := paths',
        late := some (latePath, lateId, lateBuf) }
    | (StepOut.panic, paths') =>
      { out := none, rest := [], paths := paths', late := none }

/-- struct PackageEntries (unity_package.rs lines 99-106): the iterator
state, holding the remaining raw entries, the state table reference, and
the late slot. -/
structure IterState where
  entries : List RawItem
  paths : PathTable
  late : Option (Chars × Chars × SpooledTempFile)
deriving Repr

/-- The output entry built when the Late Slot is flushed
(unity_package.rs lines 132-137). -/
def lateEntry (l : Chars × Chars × SpooledTempFile) : PackageEntry :=
  { path := l.1, content := PackageEntryContent.buffer l.2.2,
    srcId := l.2.1, srcKind := assetMetaStr }

/-- PackageEntries::next (unity_package.rs lines 131-281): flush the Late
Slot if it holds an entry, otherwise run the loop over raw items. -/
def next (s : IterState) : Option (Except IterError PackageEntry) × IterState :=
  match s.late with
  | some l =>
    (some (Except.ok (lateEntry l)),
      { entries := s.entries, paths := s.paths, late := none })
  | none =>
    let r := nextLoop s.entries s.paths
    (r.out, { entries := r.rest, paths := r.paths, late := r.late })

/-- Driving the iterator to exhaustion with explicit fuel (each productive
call strictly decreases 2 * remaining entries + late-slot occupancy, so
the fuel chosen in runIter suffices). -/
def runAux : Nat → IterState → List (Except IterError PackageEntry)
  | 0, _ => []
  | n + 1, s =>
    match next s with
    | (none, _) => []
    | (some x, s') => x :: runAux n s'

/-- The full sequence of items produced by the Reassembly Iterator from a
given starting state. -/
def runIter (s : IterState) : List (Except IterError PackageEntry) :=
  runAux (2 * s.entries.length + 2) s

theorem lookup_setStatus_self (p : PathTable) (i : Chars) (st : ItemStatus) :
    lookupStatus (setStatus p i st) i = some st := by
  induction p with
  | nil => simp [setStatus, lookupStatus]
  | cons kv rest ih =>
    obtain ⟨k, v⟩ := kv
    by_cases h : k = i
    · simp [setStatus, lookupStatus, h]
    · simp [setStatus, lookupStatus, h, ih]

theorem lookup_setStatus_ne (p : PathTable) (i j : Chars) (st : ItemStatus)
    (h : i ≠ j) : lookupStatus (setStatus p i st) j = lookupStatus p j := by
  induction p with
  | nil => simp [setStatus, lookupStatus, h]
  | cons kv rest ih =>
    obtain ⟨k, v⟩ := kv
    by_cases hk : k = i
    · subst hk
      simp [setStatus, lookupStatus, h]
    · simp [setStatus, lookupStatus, hk, ih]

theorem lookup_ensureKey_self (p : PathTable) (i : Chars) :
    lookupStatus (ensureKey p i) i = some (statusOrDefault p i) := by
  unfold ensureKey statusOrDefault
  cases h : lookupStatus p i with
  | none => simp [lookup_setStatus_self]
  | some st => simp [h]

theorem lookup_ensureKey_ne (p : PathTable) (i j : Chars) (h : i ≠ j) :
    lookupStatus (ensureKey p i) j = lookupStatus p j := by
  unfold ensureKey
  cases hl : lookupStatus p i with
  | none => simp [lookup_setStatus_ne _ _ _ _ h]
  | some st => rfl

theorem readToEnd_buffer_reader (bs : Chars) (t : SpooledTempFile)
    (h : buffer_reader (some bs) = some t) : t.readToEnd = bs := by
  simp only [buffer_reader, Option.some.injEq] at h
  subst h
  simp [SpooledTempFile.readToEnd, SpooledTempFile.seekStart,
    SpooledTempFile.write, spooled_tempfile]

/-- The items one nextLoop call contributes to the overall sequence: its
immediate output followed, when the late slot was filled, by the late
entry the next call will flush. -/
def emitted (r : NextResult) : List (Except IterError PackageEntry) :=
  match r.out with
  | none => []
  | some x =>
    x ::
      (match r.late with
       | none => []
       | some lb => [Except.ok (lateEntry lb)])

theorem nextLoop_out_none (l : List RawItem) (p : PathTable)
    (h : (nextLoop l p).out = none) :
    (nextLoop l p).rest = [] ∧ (nextLoop l p).late = none := by
  induction l generalizing p with
  | nil => simp [nextLoop]
  | cons item rest ih =>
    rcases hs : stepEntry item p with ⟨o, p'⟩
    cases o with
    | skip =>
      simp only [nextLoop, hs] at h ⊢
      exact ih p' h
    | yieldErr e => simp [nextLoop, hs] at h
    | yieldOk q => simp [nextLoop, hs] at h
    | yieldTwo q lp li lb => simp [nextLoop, hs] at h
    | panic => simp [nextLoop, hs]

theorem nextLoop_out_some (l : List RawItem) (p : PathTable)
    (x : Except IterError PackageEntry) (h : (nextLoop l p).out = some x) :
    (nextLoop l p).rest.length < l.length := by
  induction l generalizing p with
  | nil => simp [nextLoop] at h
  | cons item rest ih =>
    rcases hs : stepEntry item p with ⟨o, p'⟩
    cases o with
    | skip =>
      simp only [nextLoop, hs] at h ⊢
      exact Nat.lt_trans (ih p' h) (Nat.lt_succ_self _)
    | yieldErr e => simp [nextLoop, hs]
    | yieldOk q => simp [nextLoop, hs]
    | yieldTwo q lp li lb => simp [nextLoop, hs]
    | panic => simp [nextLoop, hs] at h

theorem processAll_eq_emitted (l : List RawItem) (p : PathTable) :
    processAll l p =
      emitted (nextLoop l p) ++
        processAll (nextLoop l p).rest (nextLoop l p).paths := by
  induction l generalizing p with
  | nil => simp [processAll, nextLoop, emitted]
  | cons item rest ih =>
    rcases hs : stepEntry item p with ⟨o, p'⟩
    cases o with
    | skip =>
      simp only [processAll, nextLoop, hs]
      exact ih p'
    | yieldErr e => simp [processAll, nextLoop, hs, emitted]
    | yieldOk q => simp [processAll, nextLoop, hs, emitted]
    | yieldTwo q lp li lb => simp [processAll, nextLoop, hs, emitted, lateEntry]
    | panic => simp [processAll, nextLoop, hs, emitted]

theorem runAux_flatten (n : Nat) (l : List RawItem) (p : PathTable)
    (hn : 2 * l.length < n) :
    runAux n { entries := l, paths := p, late := none } = processAll l p := by
  induction n using Nat.strong_induction_on generalizing l p with
  | _ n ih =>
    match n, hn with
    | Nat.succ m, hn =>
      rw [processAll_eq_emitted l p]
      rcases hout : (nextLoop l p).out with _ | x
      · obtain ⟨hrest, hlate⟩ := nextLoop_out_none l p hout
        simp [runAux, next, hout, emitted, hrest, processAll]
      · have hlen := nextLoop_out_some l p x hout
        rcases hlatev : (nextLoop l p).late with _ | lb
        · have hm : 2 * (nextLoop l p).rest.length < m := by omega
          simp only [runAux, next, hout, hlatev]
          rw [ih m (Nat.lt_succ_self m) _ _ hm]
          simp [emitted, hout, hlatev]
        · have hm2 : 2 * (nextLoop l p).rest.length + 1 < m := by omega
          match m, hm2 with
          | Nat.succ m', hm2 =>
            have hm' : 2 * (nextLoop l p).rest.length < m' := by omega
            simp only [runAux, next, hout, hlatev]
            rw [ih m' (by omega) _ _ hm']
            simp [emitted, hout, hlatev]

/-- The iterator, started on a fresh entry sequence with an empty Late
Slot, produces exactly the flattened per-item output sequence. -/
theorem runIter_eq_processAll (l : List RawItem) (p : PathTable) :
    runIter { entries := l, paths := p, late := none } = processAll l p := by
  exact runAux_flatten _ l p (by simp)

/-- The (identifier, member name, content) of a raw item, when the item is
a regular file whose path decodes into exactly two components; none
otherwise (such items never touch the state table and never produce an
output entry). -/
def itemMember : RawItem → Option (Chars × Chars × Option Chars)
  | RawItem.headerErr => none
  | RawItem.entry e =>
    if e.isFile then
      match e.path with
      | some [id, part] => some (id, part, e.content)
      | _ => none
    else
      none

/-- The subsequence of (member name, content) pairs belonging to one
identifier. -/
def projEntries (i : Chars) (l : List RawItem) : List (Chars × Option Chars) :=
  l.filterMap fun item =>
    match itemMember item with
    | some (id, part, c) => if id = i then some (part, c) else none
    | none => none

/-- The successfully produced output entries attributed to one identifier. -/
def okEntriesFor (i : Chars) (outs : List (Except IterError PackageEntry)) :
    List PackageEntry :=
  outs.filterMap fun x =>
    match x with
    | Except.ok e => if e.srcId = i then some e else none
    | Except.error _ => none

/-- An output entry viewed as its observable (path, content bytes) pair. -/
def entryPair (e : PackageEntry) : Chars × Option Chars :=
  (e.path, contentReadToEnd e.content)

/-- The effect of one member of a fixed identifier on that identifier's
state, together with the output entries it contributes.  This mirrors
dispatchMember restricted to the identifier's own table binding; the state
is an Option so that an absent binding is distinguished from a present
default one. -/
def perIdStep (i : Chars) (st : Option ItemStatus) (part : Chars)
    (content : Option Chars) : List PackageEntry × Option ItemStatus :=
  if part = previewStr then
    ([], st)
  else if part = assetStr ∨ part = assetMetaStr then
    match st.getD itemDefault with
    | ItemStatus.awaitingPath parts =>
      match buffer_reader content with
      | none => ([], some (ItemStatus.awaitingPath parts))
      | some temp =>
        if part = assetStr then
          ([], some (ItemStatus.awaitingPath { parts with asset := some temp }))
        else if part = assetMetaStr then
          ([], some (ItemStatus.awaitingPath { parts with metadata := some temp }))
        else
          ([], some (ItemStatus.awaitingPath parts))
    | ItemStatus.knownPath p =>
      if part = assetStr then
        ([{ path := p, content := PackageEntryContent.direct content,
            srcId := i, srcKind := part }], some (ItemStatus.knownPath p))
      else if part = assetMetaStr then
        ([{ path := p ++ metaSuffix, content := PackageEntryContent.direct content,
            srcId := i, srcKind := part }], some (ItemStatus.knownPath p))
      else
        ([], some (ItemStatus.knownPath p))
    | ItemStatus.error => ([], some ItemStatus.error)
  else if part = pathnameStr then
    match content with
    | none => ([], some ItemStatus.error)
    | some raw =>
      let name := stripAssets raw
      match st with
      | some (ItemStatus.awaitingPath parts) =>
        match parts.asset, parts.metadata with
        | some asset, some metadata =>
          ([{ path := name, content := PackageEntryContent.buffer asset,
              srcId := i, srcKind := assetStr },
            { path := name ++ metaSuffix,
              content := PackageEntryContent.buffer metadata,
              srcId := i, srcKind := assetMetaStr }],
            some (ItemStatus.knownPath name))
        | some asset, none =>
          ([{ path := name, content := PackageEntryContent.buffer asset,
              srcId := i, srcKind := assetStr }],
            some (ItemStatus.knownPath name))
        | none, some metadata =>
          ([{ path := name ++ metaSuffix,
              content := PackageEntryContent.buffer metadata,
              srcId := i, srcKind := assetMetaStr }],
            some (ItemStatus.knownPath name))
        | none, none => ([], some (ItemStatus.knownPath name))
      | _ => ([], some (ItemStatus.knownPath name))
  else
    ([], st)

/-- Running one identifier's member subsequence through its per-identifier
state machine, collecting the output entries it produces. -/
def perIdRun (i : Chars) (st : Option ItemStatus) :
    List (Chars × Option Chars) → List PackageEntry
  | [] => []
  | (part, c) :: rest =>
    let r := perIdStep i st part c
    r.1 ++ perIdRun i r.2 rest

@[simp] theorem assetStr_ne_previewStr : assetStr ≠ previewStr := by decide

@[simp] theorem assetMetaStr_ne_previewStr : assetMetaStr ≠ previewStr := by decide

@[simp] theorem pathnameStr_ne_previewStr : pathnameStr ≠ previewStr := by decide

@[simp] theorem assetStr_ne_assetMetaStr : assetStr ≠ assetMetaStr := by decide

@[simp] theorem assetMetaStr_ne_assetStr : assetMetaStr ≠ assetStr := by decide

@[simp] theorem pathnameStr_ne_assetStr : pathnameStr ≠ assetStr := by decide

@[simp] theorem pathnameStr_ne_assetMetaStr : pathnameStr ≠ assetMetaStr := by decide

@[simp] theorem assetStr_eq_self : (assetStr = assetStr) = True := by simp

@[simp] theorem assetMetaStr_eq_self : (assetMetaStr = assetMetaStr) = True := by simp

theorem dispatchMember_localize (i part : Chars) (c : Option Chars)
    (comps : List Chars) (p : PathTable) :
    okEntriesFor i (outsOf (dispatchMember i part c comps p).1) =
        (perIdStep i (lookupStatus p i) part c).1 ∧
      lookupStatus (dispatchMember i part c comps p).2 i =
        (perIdStep i (lookupStatus p i) part c).2 := by
  by_cases h1 : part = previewStr
  · simp [dispatchMember, perIdStep, h1, okEntriesFor, outsOf]
  · by_cases h2 : part = assetStr ∨ part = assetMetaStr
    · have hsd : statusOrDefault p i = (lookupStatus p i).getD itemDefault := rfl
      rcases hst : statusOrDefault p i with parts | kp
      · rcases hbr : buffer_reader c with _ | temp
        · simp [dispatchMember, perIdStep, h1, h2, hst, hbr, okEntriesFor,
            outsOf, lookup_ensureKey_self, hsd.symm]
        · rcases h2 with h2 | h2
          · simp [dispatchMember, perIdStep, h1, h2, hst, hbr, okEntriesFor,
              outsOf, lookup_setStatus_self, hsd.symm]
          · have hne : part ≠ assetStr := by
              subst h2; decide
            simp [dispatchMember, perIdStep, h1, h2, hne, hst, hbr,
              okEntriesFor, outsOf, lookup_setStatus_self, hsd.symm]
      · rcases h2 with h2 | h2
        · simp [dispatchMember, perIdStep, h1, h2, hst, okEntriesFor, outsOf,
            lookup_ensureKey_self, hsd.symm]
        · have hne : part ≠ assetStr := by
            subst h2; decide
          simp [dispatchMember, perIdStep, h1, h2, hne, hst, okEntriesFor,
            outsOf, lookup_ensureKey_self, hsd.symm]
      · simp [dispatchMember, perIdStep, h1, h2, hst, okEntriesFor, outsOf,
          lookup_ensureKey_self, hsd.symm]
    · by_cases h3 : part = pathnameStr
      · rcases c with _ | raw
        · simp [dispatchMember, perIdStep, h1, h2, h3, okEntriesFor, outsOf,
            lookup_setStatus_self]
        · rcases hst : lookupStatus p i with _ | st
          · simp [dispatchMember, perIdStep, h1, h2, h3, hst, okEntriesFor,
              outsOf, lookup_setStatus_self]
          · rcases st with parts | kp
            · rcases hpa : parts.asset with _ | ab <;>
                rcases hpm : parts.metadata with _ | mb <;>
                simp [dispatchMember, perIdStep, h1, h2, h3, hst, hpa, hpm,
                  okEntriesFor, outsOf, lookup_setStatus_self]
            · simp [dispatchMember, perIdStep, h1, h2, h3, hst, okEntriesFor,
                outsOf, lookup_setStatus_self]
            · simp [dispatchMember, perIdStep, h1, h2, h3, hst, okEntriesFor,
                outsOf, lookup_setStatus_self]
      · simp [dispatchMember, perIdStep, h1, h2, h3, okEntriesFor, outsOf]

theorem dispatchMember_frame (id part : Chars) (c : Option Chars)
    (comps : List Chars) (p : PathTable) (i : Chars) (hne : id ≠ i) :
    okEntriesFor i (outsOf (dispatchMember id part c comps p).1) = [] ∧
      lookupStatus (dispatchMember id part c comps p).2 i = lookupStatus p i := by
  by_cases h1 : part = previewStr
  · simp [dispatchMember, h1, okEntriesFor, outsOf]
  · by_cases h2 : part = assetStr ∨ part = assetMetaStr
    · rcases hst : statusOrDefault p id with parts | kp
      · rcases hbr : buffer_reader c with _ | temp
        · simp [dispatchMember, h1, h2, hst, hbr, okEntriesFor, outsOf,
            lookup_ensureKey_ne _ _ _ hne]
        · rcases h2 with h2 | h2 <;>
          · subst h2
            simp [dispatchMember, h1, hst, hbr, okEntriesFor, outsOf,
              lookup_setStatus_ne _ _ _ _ hne, lookup_ensureKey_ne _ _ _ hne]
      · rcases h2 with h2 | h2 <;>
        · subst h2
          simp [dispatchMember, h1, hst, okEntriesFor, outsOf, hne,
            lookup_ensureKey_ne _ _ _ hne]
      · simp [dispatchMember, h1, h2, hst, okEntriesFor, outsOf,
          lookup_ensureKey_ne _ _ _ hne]
    · by_cases h3 : part = pathnameStr
      · rcases c with _ | raw
        · simp [dispatchMember, h1, h2, h3, okEntriesFor, outsOf,
            lookup_setStatus_ne _ _ _ _ hne]
        · rcases hst : lookupStatus p id with _ | st
          · simp [dispatchMember, h1, h2, h3, hst, okEntriesFor, outsOf,
              lookup_setStatus_ne _ _ _ _ hne]
          · rcases st with parts | kp
            · rcases hpa : parts.asset with _ | ab <;>
                rcases hpm : parts.metadata with _ | mb <;>
                simp [dispatchMember, h1, h2, h3, hst, hpa, hpm, okEntriesFor,
                  outsOf, hne, lookup_setStatus_ne _ _ _ _ hne]
            · simp [dispatchMember, h1, h2, h3, hst, okEntriesFor, outsOf,
                lookup_setStatus_ne _ _ _ _ hne]
            · simp [dispatchMember, h1, h2, h3, hst, okEntriesFor, outsOf,
                lookup_setStatus_ne _ _ _ _ hne]
      · simp [dispatchMember, h1, h2, h3, okEntriesFor, outsOf]

theorem stepEntry_localize (item : RawItem) (p : PathTable) (i part : Chars)
    (c : Option Chars) (h : itemMember item = some (i, part, c)) :
    okEntriesFor i (outsOf (stepEntry item p).1) =
        (perIdStep i (lookupStatus p i) part c).1 ∧
      lookupStatus (stepEntry item p).2 i =
        (perIdStep i (lookupStatus p i) part c).2 := by
  cases item with
  | headerErr => simp [itemMember] at h
  | entry e =>
    obtain ⟨isf, pth, cont⟩ := e
    cases isf with
    | false => simp [itemMember] at h
    | true =>
      cases pth with
      | none => simp [itemMember] at h
      | some comps =>
        match comps with
        | [] => simp [itemMember] at h
        | [a] => simp [itemMember] at h
        | a :: b :: d :: rest => simp [itemMember] at h
        | [a, b] =>
          simp only [itemMember, if_true] at h
          rcases h with ⟨rfl, rfl, rfl⟩
          simpa [stepEntry] using dispatchMember_localize i part c [i, part] p

theorem stepEntry_frame (item : RawItem) (p : PathTable) (i : Chars)
    (h : ∀ part c, itemMember item ≠ some (i, part, c)) :
    okEntriesFor i (outsOf (stepEntry item p).1) = [] ∧
      lookupStatus (stepEntry item p).2 i = lookupStatus p i := by
  cases item with
  | headerErr => simp [stepEntry, okEntriesFor, outsOf]
  | entry e =>
    obtain ⟨isf, pth, cont⟩ := e
    cases isf with
    | false => simp [stepEntry, okEntriesFor, outsOf]
    | true =>
      cases pth with
      | none => simp [stepEntry, okEntriesFor, outsOf]
      | some comps =>
        match comps with
        | [] => simp [stepEntry, okEntriesFor, outsOf]
        | [a] => simp [stepEntry, okEntriesFor, outsOf]
        | a :: b :: d :: rest => simp [stepEntry, okEntriesFor, outsOf]
        | [a, b] =>
          have hne : a ≠ i := by
            intro hai
            exact h b cont (by simp [itemMember, hai])
          simpa [stepEntry] using dispatchMember_frame a b cont [a, b] p i hne

theorem dispatchMember_no_panic (id part : Chars) (c : Option Chars)
    (comps : List Chars) (p : PathTable) :
    (dispatchMember id part c comps p).1 ≠ StepOut.panic := by
  by_cases h1 : part = previewStr
  · simp [dispatchMember, h1]
  · by_cases h2 : part = assetStr ∨ part = assetMetaStr
    · rcases hst : statusOrDefault p id with parts | kp
      · rcases hbr : buffer_reader c with _ | temp
        · simp [dispatchMember, h1, h2, hst, hbr]
        · rcases h2 with h2 | h2 <;>
          · subst h2
            simp [dispatchMember, h1, hst, hbr]
      · rcases h2 with h2 | h2 <;>
        · subst h2
          simp [dispatchMember, h1, hst]
      · simp [dispatchMember, h1, h2, hst]
    · by_cases h3 : part = pathnameStr
      · rcases c with _ | raw
        · simp [dispatchMember, h1, h2, h3]
        · rcases hst : lookupStatus p id with _ | st
          · simp [dispatchMember, h1, h2, h3, hst]
          · rcases st with parts | kp
            · rcases hpa : parts.asset with _ | ab <;>
                rcases hpm : parts.metadata with _ | mb <;>
                simp [dispatchMember, h1, h2, h3, hst, hpa, hpm]
            · simp [dispatchMember, h1, h2, h3, hst]
            · simp [dispatchMember, h1, h2, h3, hst]
      · simp [dispatchMember, h1, h2, h3]

theorem stepEntry_no_panic (item : RawItem) (p : PathTable) :
    (stepEntry item p).1 ≠ StepOut.panic := by
  cases item with
  | headerErr => simp [stepEntry]
  | entry e =>
    obtain ⟨isf, pth, cont⟩ := e
    cases isf with
    | false => simp [stepEntry]
    | true =>
      cases pth with
      | none => simp [stepEntry]
      | some comps =>
        match comps with
        | [] => simp [stepEntry]
        | [a] => simp [stepEntry]
        | a :: b :: d :: rest => simp [stepEntry]
        | [a, b] => simpa [stepEntry] using dispatchMember_no_panic a b cont [a, b] p

theorem processAll_cons (item : RawItem) (rest : List RawItem) (p : PathTable) :
    processAll (item :: rest) p =
      outsOf (stepEntry item p).1 ++ processAll rest (stepEntry item p).2 := by
  rcases hs : stepEntry item p with ⟨o, p'⟩
  cases o with
  | skip => simp [processAll, hs, outsOf]
  | yieldErr e => simp [processAll, hs, outsOf]
  | yieldOk q => simp [processAll, hs, outsOf]
  | yieldTwo q lp li lb => simp [processAll, hs, outsOf]
  | panic => exact absurd (by simp [hs]) (stepEntry_no_panic item p)

theorem okEntriesFor_append (i : Chars)
    (xs ys : List (Except IterError PackageEntry)) :
    okEntriesFor i (xs ++ ys) = okEntriesFor i xs ++ okEntriesFor i ys := by
  simp [okEntriesFor]

/-- Localization: the output entries the engine produces for one identifier
are exactly what that identifier's own member subsequence produces through
its per-identifier state machine, independent of all other identifiers. -/
theorem processAll_localize (l : List RawItem) (p : PathTable) (i : Chars) :
    okEntriesFor i (processAll l p) =
      perIdRun i (lookupStatus p i) (projEntries i l) := by
  induction l generalizing p with
  | nil => simp [processAll, projEntries, perIdRun, okEntriesFor]
  | cons item rest ih =>
    rw [processAll_cons, okEntriesFor_append]
    by_cases hmem : ∃ part c, itemMember item = some (i, part, c)
    · obtain ⟨part, c, hm⟩ := hmem
      obtain ⟨houts, hstat⟩ := stepEntry_localize item p i part c hm
      have hproj : projEntries i (item :: rest) = (part, c) :: projEntries i rest := by
        simp [projEntries, List.filterMap_cons, hm]
      rw [hproj, houts, ih, hstat]
      rfl
    · push_neg at hmem
      obtain ⟨houts, hstat⟩ := stepEntry_frame item p i hmem
      have hproj : projEntries i (item :: rest) = projEntries i rest := by
        rcases hit : itemMember item with _ | x
        · simp [projEntries, List.filterMap_cons, hit]
        · obtain ⟨id, part, c⟩ := x
          have : id ≠ i := by
            intro hid
            exact hmem part c (by simp [hit, hid])
          simp [projEntries, List.filterMap_cons, hit, this]
      rw [hproj, houts, ih, hstat]
      simp

/-- A regular-file raw entry with the canonical two-component path shape. -/
def fileItem (i part : Chars) (c : Option Chars) : RawItem :=
  RawItem.entry { isFile := true, path := some [i, part], content := c }

/-- The observable (path, content bytes) pairs of the successful outputs. -/
def okPairs (outs : List (Except IterError PackageEntry)) :
    List (Chars × Option Chars) :=
  outs.filterMap fun x =>
    match x with
    | Except.ok e => some (entryPair e)
    | Except.error _ => none

/-- C10: in the member-kind dispatch, the inner matches selecting between
the asset and metadata slots (and between the two output path forms) are
only entered with the member name equal to asset or asset.meta, so their
catch-all arms (unreachable! in the source, the panic outcome in this
embedding) are never taken, whatever the raw item and table. -/
theorem inner_dispatch_catchall_unreachable (item : RawItem) (p : PathTable) :
    (stepEntry item p).1 ≠ StepOut.panic :=
  stepEntry_no_panic item p

/-- C4: processing a decodable pathname member always resolves the
identifier to KnownPath of the stripped name; a leading Assets/ prefix is
removed (the resolved name restores the original when the prefix is glued
back), and a name without the prefix is kept character-for-character
unchanged. -/
theorem pathname_strips_assets_or_keeps (i raw : Chars) (p : PathTable) :
    lookupStatus (stepEntry (fileItem i pathnameStr (some raw)) p).2 i =
        some (ItemStatus.knownPath (stripAssets raw)) ∧
      (assetsDir.isPrefixOf raw → assetsDir ++ stripAssets raw = raw) ∧
      (¬ assetsDir.isPrefixOf raw → stripAssets raw = raw) := by
  refine ⟨?_, ?_, ?_⟩
  · have h2 : ¬(pathnameStr = assetStr ∨ pathnameStr = assetMetaStr) := by decide
    rcases hst : lookupStatus p i with _ | st
    · simp [stepEntry, fileItem, dispatchMember, h2, hst, lookup_setStatus_self]
    · rcases st with ⟨pa, pm⟩ | kp
      · rcases pa with _ | ab <;> rcases pm with _ | mb <;>
          simp [stepEntry, fileItem, dispatchMember, h2, hst, lookup_setStatus_self]
      · simp [stepEntry, fileItem, dispatchMember, h2, hst, lookup_setStatus_self]
      · simp [stepEntry, fileItem, dispatchMember, h2, hst, lookup_setStatus_self]
  · intro h
    obtain ⟨t, ht⟩ := List.isPrefixOf_iff_prefix.mp h
    subst ht
    simp [stripAssets, h, List.drop_left]
  · intro h
    simp [stripAssets, h]

/-- C4 witness: a concrete prefixed pathname resolves to the stripped name
and the stripped name restores the original under the prefix. -/
theorem pathname_strips_assets_or_keeps_witness :
    lookupStatus
        (stepEntry
          (fileItem ['i']
            pathnameStr
            (some ['A', 's', 's', 'e', 't', 's', '/', 'F'])) []).2 ['i'] =
        some (ItemStatus.knownPath (stripAssets ['A', 's', 's', 'e', 't', 's', '/', 'F'])) ∧
      assetsDir ++ stripAssets ['A', 's', 's', 'e', 't', 's', '/', 'F'] =
        ['A', 's', 's', 'e', 't', 's', '/', 'F'] :=
  ⟨(pathname_strips_assets_or_keeps ['i'] ['A', 's', 's', 'e', 't', 's', '/', 'F'] []).1,
    (pathname_strips_assets_or_keeps ['i'] ['A', 's', 's', 'e', 't', 's', '/', 'F'] []).2.1
      (by decide)⟩

/-- Whether an identifier's binding is in a terminal resolution state
(KnownPath or Error). -/
def isTerminal : Option ItemStatus → Bool
  | some (ItemStatus.knownPath _) => true
  | some ItemStatus.error => true
  | _ => false

theorem perIdStep_terminal (i part : Chars) (c : Option Chars)
    (st : Option ItemStatus) (h : isTerminal st = true) :
    isTerminal (perIdStep i st part c).2 = true := by
  rcases st with _ | stv
  · simp [isTerminal] at h
  · rcases stv with parts | kp
    · simp [isTerminal] at h
    · by_cases h1 : part = previewStr
      · simp [perIdStep, h1, isTerminal]
      · by_cases h2 : part = assetStr ∨ part = assetMetaStr
        · rcases h2 with h2 | h2 <;>
          · subst h2
            simp [perIdStep, h1, isTerminal, Option.getD]
        · by_cases h3 : part = pathnameStr
          · rcases c with _ | raw <;> simp [perIdStep, h1, h2, h3, isTerminal]
          · simp [perIdStep, h1, h2, h3, isTerminal]
    · by_cases h1 : part = previewStr
      · simp [perIdStep, h1, isTerminal]
      · by_cases h2 : part = assetStr ∨ part = assetMetaStr
        · rcases h2 with h2 | h2 <;>
          · subst h2
            simp [perIdStep, h1, isTerminal, Option.getD]
        · by_cases h3 : part = pathnameStr
          · rcases c with _ | raw <;> simp [perIdStep, h1, h2, h3, isTerminal]
          · simp [perIdStep, h1, h2, h3, isTerminal]

theorem perIdStep_nonpathname_keeps_terminal (i part : Chars) (c : Option Chars)
    (st : Option ItemStatus) (h : isTerminal st = true) (hp : part ≠ pathnameStr) :
    (perIdStep i st part c).2 = st := by
  rcases st with _ | stv
  · simp [isTerminal] at h
  · rcases stv with parts | kp
    · simp [isTerminal] at h
    · by_cases h1 : part = previewStr
      · simp [perIdStep, h1]
      · by_cases h2 : part = assetStr ∨ part = assetMetaStr
        · rcases h2 with h2 | h2 <;>
          · subst h2
            simp [perIdStep, h1, Option.getD]
        · simp [perIdStep, h1, h2, hp]
    · by_cases h1 : part = previewStr
      · simp [perIdStep, h1]
      · by_cases h2 : part = assetStr ∨ part = assetMetaStr
        · rcases h2 with h2 | h2 <;>
          · subst h2
            simp [perIdStep, h1, Option.getD]
        · simp [perIdStep, h1, h2, hp]

theorem perIdStep_error_silent (i part : Chars) (c : Option Chars) :
    (perIdStep i (some ItemStatus.error) part c).1 = [] := by
  by_cases h1 : part = previewStr
  · simp [perIdStep, h1]
  · by_cases h2 : part = assetStr ∨ part = assetMetaStr
    · rcases h2 with h2 | h2 <;>
      · subst h2
        simp [perIdStep, h1, Option.getD]
    · by_cases h3 : part = pathnameStr
      · rcases c with _ | raw <;> simp [perIdStep, h1, h2, h3]
      · simp [perIdStep, h1, h2, h3]

/-- C2 (amended): once an identifier is in a terminal state (KnownPath or
Error) it never returns to AwaitingPath; a raw entry that is not a
pathname member of that identifier leaves the terminal state unchanged;
and no single step emits an Output Entry for an identifier whose state is
Error when that step begins.  (A later pathname member can, however,
replace one terminal state by another.) -/
theorem terminal_no_regress_error_silent (item : RawItem) (p : PathTable)
    (i : Chars) (h : isTerminal (lookupStatus p i) = true) :
    isTerminal (lookupStatus (stepEntry item p).2 i) = true ∧
      ((∀ c, itemMember item ≠ some (i, pathnameStr, c)) →
        lookupStatus (stepEntry item p).2 i = lookupStatus p i) ∧
      (lookupStatus p i = some ItemStatus.error →
        okEntriesFor i (outsOf (stepEntry item p).1) = []) := by
  by_cases hmem : ∃ part c, itemMember item = some (i, part, c)
  · obtain ⟨part, c, hm⟩ := hmem
    obtain ⟨houts, hstat⟩ := stepEntry_localize item p i part c hm
    refine ⟨?_, ?_, ?_⟩
    · rw [hstat]
      exact perIdStep_terminal i part c _ h
    · intro hnp
      rw [hstat]
      refine perIdStep_nonpathname_keeps_terminal i part c _ h ?_
      intro hpp
      exact hnp c (by rw [hm, hpp])
    · intro herr
      rw [houts, herr]
      exact perIdStep_error_silent i part c
  · push_neg at hmem
    obtain ⟨houts, hstat⟩ := stepEntry_frame item p i hmem
    exact ⟨by rw [hstat]; exact h, fun _ => by rw [hstat], fun _ => houts⟩

/-- C2 witness: a concrete identifier in Error, hit by an asset member:
the state is unchanged and no output is attributed to it. -/
theorem terminal_no_regress_error_silent_witness :
    isTerminal (lookupStatus [(['i'], ItemStatus.error)] ['i']) = true ∧
      lookupStatus
          (stepEntry (fileItem ['i'] assetStr (some ['x']))
            [(['i'], ItemStatus.error)]).2 ['i'] =
        lookupStatus [(['i'], ItemStatus.error)] ['i'] ∧
      okEntriesFor ['i']
          (outsOf
            (stepEntry (fileItem ['i'] assetStr (some ['x']))
              [(['i'], ItemStatus.error)]).1) =
        [] :=
  ⟨by decide,
    (terminal_no_regress_error_silent (fileItem ['i'] assetStr (some ['x']))
      [(['i'], ItemStatus.error)] ['i'] (by decide)).2.1
      (by
        intro c hc
        simp [itemMember, fileItem,
          (by decide : assetStr ≠ pathnameStr)] at hc),
    (terminal_no_regress_error_silent (fileItem ['i'] assetStr (some ['x']))
      [(['i'], ItemStatus.error)] ['i'] (by decide)).2.2 (by decide)⟩

/-- C2 counterexample: an identifier whose pathname member fails to read
enters Error, yet a later second pathname member re-resolves it and its
asset member then produces an Output Entry, contradicting the claim that
a terminal state is never changed and that an identifier once in Error
never produces output. -/
theorem terminal_state_can_change_counterexample :
    lookupStatus (stepEntry (fileItem ['i'] pathnameStr none) []).2 ['i'] =
        some ItemStatus.error ∧
      okEntriesFor ['i']
          (processAll
            [fileItem ['i'] pathnameStr none,
              fileItem ['i'] pathnameStr
                (some ['A', 's', 's', 'e', 't', 's', '/', 'F']),
              fileItem ['i'] assetStr (some ['x'])] []) ≠
        [] := by decide

/-- Whether a binding is KnownPath. -/
def isKnown : Option ItemStatus → Bool
  | some (ItemStatus.knownPath _) => true
  | _ => false

theorem perIdRun_unreadable_pathname (i : Chars)
    (es : List (Chars × Option Chars)) (st : Option ItemStatus)
    (hst : isKnown st = false) (hp : ∀ c, (pathnameStr, c) ∈ es → c = none) :
    perIdRun i st es = [] := by
  induction es generalizing st with
  | nil => simp [perIdRun]
  | cons pc rest ih =>
    obtain ⟨part, c⟩ := pc
    have hrest : ∀ c, (pathnameStr, c) ∈ rest → c = none := by
      intro c' hmem
      exact hp c' (List.mem_cons_of_mem _ hmem)
    by_cases h1 : part = previewStr
    · simp only [perIdRun, perIdStep, h1, if_true]
      exact ih st hst hrest
    · by_cases h2 : part = assetStr ∨ part = assetMetaStr
      · rcases hsd : st.getD itemDefault with parts | kp
        · rcases hbr : buffer_reader c with _ | temp
          · simp only [perIdRun, perIdStep, h1, if_neg h1, if_pos h2, hsd, hbr]
            exact ih _ (by simp [isKnown]) hrest
          · rcases h2 with h2 | h2
            · subst h2
              simp only [perIdRun, perIdStep, if_neg h1,
                if_pos (Or.inl rfl : assetStr = assetStr ∨ assetStr = assetMetaStr),
                hsd, hbr, if_pos rfl]
              exact ih _ (by simp [isKnown]) hrest
            · subst h2
              have hne : assetMetaStr ≠ assetStr := by decide
              simp only [perIdRun, perIdStep, if_neg h1,
                if_pos (Or.inr rfl : assetMetaStr = assetStr ∨ assetMetaStr = assetMetaStr),
                hsd, hbr, if_neg hne, if_pos rfl]
              exact ih _ (by simp [isKnown]) hrest
        · rcases st with _ | stv
          · simp [itemDefault] at hsd
          · rcases stv with parts | kp'
            · simp [itemDefault] at hsd
            · simp [isKnown] at hst
            · simp at hsd
        · rcases st with _ | stv
          · simp [itemDefault] at hsd
          · simp only [perIdRun, perIdStep, if_neg h1, if_pos h2, hsd]
            rcases stv with parts | kp'
            · simp at hsd
            · simp [isKnown] at hst
            · exact ih _ (by simp [isKnown]) hrest
      · by_cases h3 : part = pathnameStr
        · have hc : c = none := hp c (by simp [h3])
          subst hc
          simp only [perIdRun, perIdStep, if_neg h1, if_neg h2, if_pos h3]
          exact ih _ (by simp [isKnown]) hrest
        · simp only [perIdRun, perIdStep, if_neg h1, if_neg h2, if_neg h3]
          exact ih st hst hrest

/-- C5: an unreadable pathname member marks its identifier Error and
surfaces an error result for that call; the flattened sequence continues
with the remaining raw entries (the iterator stays usable); and an
identifier all of whose pathname members are unreadable produces zero
Output Entries, wherever its asset and asset.meta members sit in the
input. -/
theorem pathname_read_failure_isolates (i : Chars) (p : PathTable)
    (rest l : List RawItem)
    (hp : ∀ c, (pathnameStr, c) ∈ projEntries i l → c = none) :
    stepEntry (fileItem i pathnameStr none) p =
        (StepOut.yieldErr (IterError.pathnameRead [i, pathnameStr]),
          setStatus p i ItemStatus.error) ∧
      processAll (fileItem i pathnameStr none :: rest) p =
        Except.error (IterError.pathnameRead [i, pathnameStr]) ::
          processAll rest (setStatus p i ItemStatus.error) ∧
      okEntriesFor i (runIter { entries := l, paths := [], late := none }) = [] := by
  have hstep : stepEntry (fileItem i pathnameStr none) p =
      (StepOut.yieldErr (IterError.pathnameRead [i, pathnameStr]),
        setStatus p i ItemStatus.error) := by
    have h2 : ¬(pathnameStr = assetStr ∨ pathnameStr = assetMetaStr) := by decide
    simp [stepEntry, fileItem, dispatchMember, h2]
  refine ⟨hstep, ?_, ?_⟩
  · rw [processAll_cons, hstep]
    simp [outsOf]
  · rw [runIter_eq_processAll, processAll_localize]
    exact perIdRun_unreadable_pathname i _ _ (by simp [lookupStatus, isKnown]) hp

/-- C5 witness: asset and asset.meta members surrounding an unreadable
pathname produce no output for that identifier, while the failing step
itself yields the error and the Error state. -/
theorem pathname_read_failure_isolates_witness :
    (∀ c,
        (pathnameStr, c) ∈
          projEntries ['i']
            [fileItem ['i'] assetStr (some ['x']),
              fileItem ['i'] pathnameStr none,
              fileItem ['i'] assetMetaStr (some ['y'])] →
        c = none) ∧
      okEntriesFor ['i']
          (runIter
            { entries :=
                [fileItem ['i'] assetStr (some ['x']),
                  fileItem ['i'] pathnameStr none,
                  fileItem ['i'] assetMetaStr (some ['y'])],
              paths := [], late := none }) =
        [] := by
  have hproj :
      projEntries ['i']
          [fileItem ['i'] assetStr (some ['x']),
            fileItem ['i'] pathnameStr none,
            fileItem ['i'] assetMetaStr (some ['y'])] =
        [(assetStr, some ['x']), (pathnameStr, none),
          (assetMetaStr, some ['y'])] := by decide
  have hp : ∀ c,
      (pathnameStr, c) ∈
        projEntries ['i']
          [fileItem ['i'] assetStr (some ['x']),
            fileItem ['i'] pathnameStr none,
            fileItem ['i'] assetMetaStr (some ['y'])] →
      c = none := by
    intro c hc
    rw [hproj] at hc
    simpa [(by decide : pathnameStr ≠ assetStr),
      (by decide : pathnameStr ≠ assetMetaStr)] using hc
  refine ⟨hp, ?_⟩
  exact (pathname_read_failure_isolates ['i'] [] []
    [fileItem ['i'] assetStr (some ['x']),
      fileItem ['i'] pathnameStr none,
      fileItem ['i'] assetMetaStr (some ['y'])] hp).2.2

theorem dispatchMember_yieldTwo (id part : Chars) (c : Option Chars)
    (comps : List Chars) (p : PathTable) (pe : PackageEntry)
    (lp lid : Chars) (lb : SpooledTempFile)
    (h : (dispatchMember id part c comps p).1 = StepOut.yieldTwo pe lp lid lb) :
    lp = pe.path ++ metaSuffix ∧ pe.srcKind = assetStr ∧
      ∃ t, pe.content = PackageEntryContent.buffer t := by
  by_cases h1 : part = previewStr
  · simp [dispatchMember, h1] at h
  · by_cases h2 : part = assetStr ∨ part = assetMetaStr
    · rcases hst : statusOrDefault p id with parts | kp
      · rcases hbr : buffer_reader c with _ | temp
        · simp [dispatchMember, h1, h2, hst, hbr] at h
        · rcases h2 with h2 | h2 <;>
          · subst h2
            simp [dispatchMember, h1, hst, hbr] at h
      · rcases h2 with h2 | h2 <;>
        · subst h2
          simp [dispatchMember, h1, hst] at h
      · simp [dispatchMember, h1, h2, hst] at h
    · by_cases h3 : part = pathnameStr
      · rcases c with _ | raw
        · simp [dispatchMember, h1, h2, h3] at h
        · rcases hst : lookupStatus p id with _ | st
          · simp [dispatchMember, h1, h2, h3, hst] at h
          · rcases st with parts | kp
            · rcases hpa : parts.asset with _ | ab <;>
                rcases hpm : parts.metadata with _ | mb <;>
                simp [dispatchMember, h1, h2, h3, hst, hpa, hpm] at h
              obtain ⟨hpe, hlp, -, -⟩ := h
              subst hpe
              exact ⟨by simp [hlp.symm], rfl, ab, rfl⟩
            · simp [dispatchMember, h1, h2, h3, hst] at h
            · simp [dispatchMember, h1, h2, h3, hst] at h
      · simp [dispatchMember, h1, h2, h3] at h

theorem stepEntry_yieldTwo (item : RawItem) (p : PathTable) (pe : PackageEntry)
    (lp lid : Chars) (lb : SpooledTempFile)
    (h : (stepEntry item p).1 = StepOut.yieldTwo pe lp lid lb) :
    lp = pe.path ++ metaSuffix ∧ pe.srcKind = assetStr ∧
      ∃ t, pe.content = PackageEntryContent.buffer t := by
  cases item with
  | headerErr => simp [stepEntry] at h
  | entry e =>
    obtain ⟨isf, pth, cont⟩ := e
    cases isf with
    | false => simp [stepEntry] at h
    | true =>
      cases pth with
      | none => simp [stepEntry] at h
      | some comps =>
        match comps with
        | [] => simp [stepEntry] at h
        | [a] => simp [stepEntry] at h
        | a :: b :: d :: rest => simp [stepEntry] at h
        | [a, b] =>
          exact dispatchMember_yieldTwo a b cont [a, b] p pe lp lid lb
            (by simpa [stepEntry] using h)

theorem nextLoop_late_shape (l : List RawItem) (p : PathTable)
    (lb : Chars × Chars × SpooledTempFile)
    (h : (nextLoop l p).late = some lb) :
    ∃ pe, (nextLoop l p).out = some (Except.ok pe) ∧
      lb.1 = pe.path ++ metaSuffix ∧ pe.srcKind = assetStr ∧
      ∃ t, pe.content = PackageEntryContent.buffer t := by
  induction l generalizing p with
  | nil => simp [nextLoop] at h
  | cons item rest ih =>
    rcases hs : stepEntry item p with ⟨o, p'⟩
    cases o with
    | skip =>
      simp only [nextLoop, hs] at h ⊢
      exact ih p' h
    | yieldErr e => simp [nextLoop, hs] at h
    | yieldOk q => simp [nextLoop, hs] at h
    | yieldTwo q lpth lid lbuf =>
      simp only [nextLoop, hs] at h ⊢
      have hshape := stepEntry_yieldTwo item p q lpth lid lbuf (by simp [hs])
      have hlb : lb = (lpth, lid, lbuf) := by
        injection h with h'
        exact h'.symm
      refine ⟨q, rfl, ?_, hshape.2.1, hshape.2.2⟩
      rw [hlb]
      exact hshape.1
    | panic => simp [nextLoop, hs] at h

/-- C9: every call first checks the Late Slot: if it holds an entry, that
entry is returned and the slot cleared, consuming no raw entries and
leaving the table untouched; and a call can only leave the slot filled
when the slot was empty and the call itself returned the buffered asset
entry of a both-parts-pending resolution, whose metadata path is the
returned entry's path with .meta appended.  (The slot holds at most one
entry by construction: it is an Option.) -/
theorem late_slot_discipline (s : IterState)
    (o : Option (Except IterError PackageEntry)) (s' : IterState)
    (h : next s = (o, s')) :
    (∀ lb, s.late = some lb →
        o = some (Except.ok (lateEntry lb)) ∧ s'.late = none ∧
          s'.entries = s.entries ∧ s'.paths = s.paths) ∧
      (∀ lb, s'.late = some lb →
        s.late = none ∧
          ∃ pe, o = some (Except.ok pe) ∧ lb.1 = pe.path ++ metaSuffix ∧
            pe.srcKind = assetStr ∧
            ∃ t, pe.content = PackageEntryContent.buffer t) := by
  rcases hl : s.late with _ | lb0
  · simp only [next, hl] at h
    injection h with h1 h2
    subst h1
    subst h2
    constructor
    · intro lb hlb
      simp at hlb
    · intro lb hlb
      refine ⟨rfl, ?_⟩
      simp only at hlb
      obtain ⟨pe, hout, hm, hk, ht⟩ := nextLoop_late_shape s.entries s.paths lb hlb
      exact ⟨pe, hout, hm, hk, ht⟩
  · simp only [next, hl] at h
    injection h with h1 h2
    subst h1
    subst h2
    constructor
    · intro lb hlb
      injection hlb with hlb
      subst hlb
      exact ⟨rfl, rfl, rfl, rfl⟩
    · intro lb hlb
      exact absurd hlb (by simp)

/-- C9 witness: a state whose Late Slot is occupied returns exactly that
entry and clears the slot. -/
theorem late_slot_discipline_witness :
    (next
          { entries := [], paths := [],
            late := some (['p'], ['i'], spooled_tempfile) }).1 =
        some (Except.ok (lateEntry (['p'], ['i'], spooled_tempfile))) ∧
      (next
          { entries := [], paths := [],
            late := some (['p'], ['i'], spooled_tempfile) }).2.late = none := by
  have h := late_slot_discipline
    { entries := [], paths := [], late := some (['p'], ['i'], spooled_tempfile) }
    (next
      { entries := [], paths := [],
        late := some (['p'], ['i'], spooled_tempfile) }).1
    (next
      { entries := [], paths := [],
        late := some (['p'], ['i'], spooled_tempfile) }).2 rfl
  obtain ⟨ho, hl, -, -⟩ := h.1 (['p'], ['i'], spooled_tempfile) rfl
  exact ⟨ho, hl⟩

/-- C3: feeding the three members of one identifier (decodable pathname,
asset bytes a, metadata bytes m) in each of the 3! orderings yields the
same final set of (path, content bytes) pairs: a permutation of the
resolved name with bytes a and the resolved name plus .meta with bytes m,
contents compared as bytes rather than stream identity. -/
theorem order_independence (i a m nRaw : Chars) :
    List.Perm
        (okPairs
          (runIter
            { entries :=
                [fileItem i pathnameStr (some nRaw),
                  fileItem i assetStr (some a),
                  fileItem i assetMetaStr (some m)],
              paths := [], late := none }))
        [(stripAssets nRaw, some a),
          (stripAssets nRaw ++ metaSuffix, some m)] ∧
      List.Perm
        (okPairs
          (runIter
            { entries :=
                [fileItem i pathnameStr (some nRaw),
                  fileItem i assetMetaStr (some m),
                  fileItem i assetStr (some a)],
              paths := [], late := none }))
        [(stripAssets nRaw, some a),
          (stripAssets nRaw ++ metaSuffix, some m)] ∧
      List.Perm
        (okPairs
          (runIter
            { entries :=
                [fileItem i assetStr (some a),
                  fileItem i assetMetaStr (some m),
                  fileItem i pathnameStr (some nRaw)],
              paths := [], late := none }))
        [(stripAssets nRaw, some a),
          (stripAssets nRaw ++ metaSuffix, some m)] ∧
      List.Perm
        (okPairs
          (runIter
            { entries :=
                [fileItem i assetStr (some a),
                  fileItem i pathnameStr (some nRaw),
                  fileItem i assetMetaStr (some m)],
              paths := [], late := none }))
        [(stripAssets nRaw, some a),
          (stripAssets nRaw ++ metaSuffix, some m)] ∧
      List.Perm
        (okPairs
          (runIter
            { entries :=
                [fileItem i assetMetaStr (some m),
                  fileItem i pathnameStr (some nRaw),
                  fileItem i assetStr (some a)],
              paths := [], late := none }))
        [(stripAssets nRaw, some a),
          (stripAssets nRaw ++ metaSuffix, some m)] ∧
      List.Perm
        (okPairs
          (runIter
            { entries :=
                [fileItem i assetMetaStr (some m),
                  fileItem i assetStr (some a),
                  fileItem i pathnameStr (some nRaw)],
              paths := [], late := none }))
        [(stripAssets nRaw, some a),
          (stripAssets nRaw ++ metaSuffix, some m)] := by
  refine ⟨?_, ?_, ?_, ?_, ?_, ?_⟩ <;>
  · rw [runIter_eq_processAll]
    simp [processAll, stepEntry, fileItem, dispatchMember, okPairs,
      entryPair, contentReadToEnd, buffer_reader, lookupStatus, setStatus,
      ensureKey, statusOrDefault, itemDefault, outsOf,
      SpooledTempFile.readToEnd, SpooledTempFile.seekStart,
      SpooledTempFile.write, spooled_tempfile]
    try exact List.Perm.swap _ _ _

/-- Whether a projected member is one of the three meaningful member kinds
(asset, asset.meta, pathname); preview.png and unrecognized members are
inert. -/
def realMember (pc : Chars × Option Chars) : Bool :=
  decide (pc.1 = assetStr ∨ pc.1 = assetMetaStr ∨ pc.1 = pathnameStr)

theorem perIdStep_inert (i : Chars) (st : Option ItemStatus)
    (part : Chars) (c : Option Chars) (h : realMember (part, c) = false) :
    perIdStep i st part c = ([], st) := by
  simp only [realMember, decide_eq_false_iff_not, not_or] at h
  obtain ⟨h1, h2, h3⟩ := h
  by_cases hp : part = previewStr
  · simp [perIdStep, hp]
  · simp [perIdStep, hp, h1, h2, h3]

theorem perIdRun_filter_real (i : Chars) (st : Option ItemStatus)
    (es : List (Chars × Option Chars)) :
    perIdRun i st es = perIdRun i st (es.filter realMember) := by
  induction es generalizing st with
  | nil => simp
  | cons pc rest ih =>
    obtain ⟨part, c⟩ := pc
    cases hr : realMember (part, c) with
    | false =>
      rw [List.filter_cons_of_neg (by simp [hr])]
      simp only [perIdRun, perIdStep_inert i st part c hr]
      exact ih st
    | true =>
      rw [List.filter_cons_of_pos (by simp [hr])]
      simp only [perIdRun]
      rw [ih]

/-- The six possible relative orders of one identifier's three members. -/
def threeMemberOrders (a m nRaw : Chars) : List (List (Chars × Option Chars)) :=
  [[(assetStr, some a), (assetMetaStr, some m), (pathnameStr, some nRaw)],
    [(assetMetaStr, some m), (assetStr, some a), (pathnameStr, some nRaw)],
    [(assetStr, some a), (pathnameStr, some nRaw), (assetMetaStr, some m)],
    [(assetMetaStr, some m), (pathnameStr, some nRaw), (assetStr, some a)],
    [(pathnameStr, some nRaw), (assetStr, some a), (assetMetaStr, some m)],
    [(pathnameStr, some nRaw), (assetMetaStr, some m), (assetStr, some a)]]

/-- C1: an identifier whose asset (readable bytes a), asset.meta (readable
bytes m) and pathname (decodable text) members each appear exactly once,
in any relative order and interleaved with arbitrary other raw items,
yields exactly two Output Entries: one at the resolved name with bytes a
and one at the resolved name plus .meta with bytes m; and whenever the
pathname member arrives after both payload members (so both become ready
in the same resolution step), the asset entry is emitted first and the
metadata entry follows on the next call through the Late Slot, never the
other way round. -/
theorem resolved_identifier_two_outputs (l : List RawItem) (i a m nRaw : Chars)
    (h : (projEntries i l).filter realMember ∈ threeMemberOrders a m nRaw) :
    List.Perm
        ((okEntriesFor i
            (runIter { entries := l, paths := [], late := none })).map entryPair)
        [(stripAssets nRaw, some a),
          (stripAssets nRaw ++ metaSuffix, some m)] ∧
      ((projEntries i l).filter realMember ∈
          [[(assetStr, some a), (assetMetaStr, some m), (pathnameStr, some nRaw)],
            [(assetMetaStr, some m), (assetStr, some a), (pathnameStr, some nRaw)]] →
        (okEntriesFor i
            (runIter { entries := l, paths := [], late := none })).map entryPair =
          [(stripAssets nRaw, some a),
            (stripAssets nRaw ++ metaSuffix, some m)]) := by
  rw [runIter_eq_processAll, processAll_localize]
  have hnone : lookupStatus [] i = none := rfl
  rw [hnone, perIdRun_filter_real]
  simp only [threeMemberOrders, List.mem_cons, List.not_mem_nil, or_false] at h
  rcases h with h | h | h | h | h | h <;> rw [h] <;>
    simp [perIdRun, perIdStep, buffer_reader, entryPair, contentReadToEnd,
      SpooledTempFile.readToEnd, SpooledTempFile.seekStart,
      SpooledTempFile.write, spooled_tempfile, Option.getD, itemDefault,
      (by decide : pathnameStr ≠ assetStr),
      (by decide : pathnameStr ≠ assetMetaStr),
      (by decide : ¬(pathnameStr = assetStr ∨ pathnameStr = assetMetaStr))] <;>
    try exact List.Perm.swap _ _ _

/-- C1 witness: a concrete sequence interleaving another identifier's
member, a header error, and an inert preview member with one identifier's
asset, asset.meta and pathname (in that order): exactly the asset entry
then the metadata entry are produced for it. -/
theorem resolved_identifier_two_outputs_witness :
    (projEntries ['1']
          [fileItem ['2'] assetStr (some ['z']),
            fileItem ['1'] assetStr (some ['A']),
            RawItem.headerErr,
            fileItem ['1'] previewStr (some ['p']),
            fileItem ['1'] assetMetaStr (some ['M']),
            fileItem ['1'] pathnameStr
              (some ['A', 's', 's', 'e', 't', 's', '/', 'F'])]).filter
        realMember ∈
      threeMemberOrders ['A'] ['M'] ['A', 's', 's', 'e', 't', 's', '/', 'F'] ∧
    (okEntriesFor ['1']
          (runIter
            { entries :=
                [fileItem ['2'] assetStr (some ['z']),
                  fileItem ['1'] assetStr (some ['A']),
                  RawItem.headerErr,
                  fileItem ['1'] previewStr (some ['p']),
                  fileItem ['1'] assetMetaStr (some ['M']),
                  fileItem ['1'] pathnameStr
                    (some ['A', 's', 's', 'e', 't', 's', '/', 'F'])],
              paths := [], late := none })).map entryPair =
      [(stripAssets ['A', 's', 's', 'e', 't', 's', '/', 'F'], some ['A']),
        (stripAssets ['A', 's', 's', 'e', 't', 's', '/', 'F'] ++ metaSuffix,
          some ['M'])] :=
  ⟨by decide,
    (resolved_identifier_two_outputs
      [fileItem ['2'] assetStr (some ['z']),
        fileItem ['1'] assetStr (some ['A']),
        RawItem.headerErr,
        fileItem ['1'] previewStr (some ['p']),
        fileItem ['1'] assetMetaStr (some ['M']),
        fileItem ['1'] pathnameStr
          (some ['A', 's', 's', 'e', 't', 's', '/', 'F'])]
      ['1'] ['A'] ['M'] ['A', 's', 's', 'e', 't', 's', '/', 'F']
      (by decide)).2 (by decide)⟩

theorem projEntries_memberBlock (i part : Chars) (cs : List Chars)
    (rest : List RawItem) :
    projEntries i (cs.map (fun x => fileItem i part (some x)) ++ rest) =
      cs.map (fun x => (part, some x)) ++ projEntries i rest := by
  induction cs with
  | nil => simp
  | cons x cs' ih =>
    simp only [List.map_cons, List.cons_append, projEntries,
      List.filterMap_cons, itemMember, fileItem] at ih ⊢
    simp only [if_true, ite_true, if_pos rfl]
    rw [ih]

/-- The buffer left in a Pending Parts slot after a block of same-kind
members: the last member's bytes in a fresh spooled buffer, or the
previous slot value when the block is empty. -/
def lastBuf (cs : List Chars) (dflt : Option SpooledTempFile) :
    Option SpooledTempFile :=
  match cs.getLast? with
  | none => dflt
  | some x => some ((spooled_tempfile.write x).seekStart)

theorem perIdRun_asset_block (i : Chars) (cs : List Chars) (parts : AssetParts)
    (rest : List (Chars × Option Chars)) :
    perIdRun i (some (ItemStatus.awaitingPath parts))
        (cs.map (fun x => (assetStr, some x)) ++ rest) =
      perIdRun i
        (some (ItemStatus.awaitingPath
          { asset := lastBuf cs parts.asset, metadata := parts.metadata }))
        rest := by
  induction cs generalizing parts with
  | nil => simp [lastBuf]
  | cons x cs' ih =>
    have hstep : perIdStep i (some (ItemStatus.awaitingPath parts)) assetStr
        (some x) =
        ([], some (ItemStatus.awaitingPath
          { asset := some ((spooled_tempfile.write x).seekStart),
            metadata := parts.metadata })) := by
      simp [perIdStep, buffer_reader]
    simp only [List.map_cons, List.cons_append, perIdRun, hstep,
      List.nil_append, List.append_eq]
    rw [ih]
    have hl : lastBuf (x :: cs') parts.asset =
        lastBuf cs' (some ((spooled_tempfile.write x).seekStart)) := by
      cases cs' with
      | nil => simp [lastBuf]
      | cons y ys =>
        simp only [lastBuf, List.getLast?_cons_cons]
        cases hgl : (y :: ys).getLast? with
        | none => simp at hgl
        | some z => rfl
    rw [hl]

theorem perIdRun_meta_block (i : Chars) (cs : List Chars) (parts : AssetParts)
    (rest : List (Chars × Option Chars)) :
    perIdRun i (some (ItemStatus.awaitingPath parts))
        (cs.map (fun x => (assetMetaStr, some x)) ++ rest) =
      perIdRun i
        (some (ItemStatus.awaitingPath
          { asset := parts.asset, metadata := lastBuf cs parts.metadata }))
        rest := by
  induction cs generalizing parts with
  | nil => simp [lastBuf]
  | cons x cs' ih =>
    have hstep : perIdStep i (some (ItemStatus.awaitingPath parts)) assetMetaStr
        (some x) =
        ([], some (ItemStatus.awaitingPath
          { asset := parts.asset,
            metadata := some ((spooled_tempfile.write x).seekStart) })) := by
      simp [perIdStep, buffer_reader]
    simp only [List.map_cons, List.cons_append, perIdRun, hstep,
      List.nil_append, List.append_eq]
    rw [ih]
    have hl : lastBuf (x :: cs') parts.metadata =
        lastBuf cs' (some ((spooled_tempfile.write x).seekStart)) := by
      cases cs' with
      | nil => simp [lastBuf]
      | cons y ys =>
        simp only [lastBuf, List.getLast?_cons_cons]
        cases hgl : (y :: ys).getLast? with
        | none => simp at hgl
        | some z => rfl
    rw [hl]

theorem projEntries_cons_own (i part : Chars) (c : Option Chars)
    (rest : List RawItem) :
    projEntries i (fileItem i part c :: rest) =
      (part, c) :: projEntries i rest := by
  simp [projEntries, List.filterMap_cons, itemMember, fileItem]

theorem lastBuf_cons_getLast (a₀ : Chars) (as : List Chars) :
    lastBuf as (some ((spooled_tempfile.write a₀).seekStart)) =
      some ((spooled_tempfile.write
        ((a₀ :: as).getLast (List.cons_ne_nil a₀ as))).seekStart) := by
  cases has : as.getLast? with
  | none =>
    have hnil : as = [] := by simpa using has
    subst hnil
    simp [lastBuf]
  | some z =>
    have hne : as ≠ [] := by
      intro hnil
      subst hnil
      simp at has
    have h1 : as.getLast hne = z := by
      have h2 := List.getLast?_eq_getLast as hne
      rw [has] at h2
      injection h2 with h3
      exact h3.symm
    rw [lastBuf, has, List.getLast_cons hne, h1]

/-- C7: while an identifier awaits its path, each arriving readable asset
member's bytes are copied into a fresh spooled buffer stored in the asset
slot (replacing any previous buffer), each arriving readable asset.meta
member into the metadata slot likewise, and when the pathname finally
resolves, the emitted content for each slot is the bytes of the last
member of that kind seen before resolution. -/
theorem slot_overwrite_last_write_wins (i : Chars) (p : PathTable)
    (parts : AssetParts) (a nRaw a₀ m₀ : Chars) (as ms : List Chars)
    (hsd : statusOrDefault p i = ItemStatus.awaitingPath parts) :
    (lookupStatus (stepEntry (fileItem i assetStr (some a)) p).2 i =
        some (ItemStatus.awaitingPath
          { asset := some ((spooled_tempfile.write a).seekStart),
            metadata := parts.metadata }) ∧
      (stepEntry (fileItem i assetStr (some a)) p).1 = StepOut.skip) ∧
    (lookupStatus (stepEntry (fileItem i assetMetaStr (some a)) p).2 i =
        some (ItemStatus.awaitingPath
          { asset := parts.asset,
            metadata := some ((spooled_tempfile.write a).seekStart) }) ∧
      (stepEntry (fileItem i assetMetaStr (some a)) p).1 = StepOut.skip) ∧
    (okEntriesFor i
        (runIter
          { entries :=
              (a₀ :: as).map (fun x => fileItem i assetStr (some x)) ++
                ((m₀ :: ms).map (fun x => fileItem i assetMetaStr (some x)) ++
                  [fileItem i pathnameStr (some nRaw)]),
            paths := [], late := none })).map entryPair =
      [(stripAssets nRaw, some ((a₀ :: as).getLast (List.cons_ne_nil a₀ as))),
        (stripAssets nRaw ++ metaSuffix,
          some ((m₀ :: ms).getLast (List.cons_ne_nil m₀ ms)))] := by
  refine ⟨⟨?_, ?_⟩, ⟨?_, ?_⟩, ?_⟩
  · simp [stepEntry, fileItem, dispatchMember, hsd, buffer_reader,
      lookup_setStatus_self]
  · simp [stepEntry, fileItem, dispatchMember, hsd, buffer_reader]
  · simp [stepEntry, fileItem, dispatchMember, hsd, buffer_reader,
      lookup_setStatus_self]
  · simp [stepEntry, fileItem, dispatchMember, hsd, buffer_reader]
  · rw [runIter_eq_processAll, processAll_localize]
    have hnone : lookupStatus [] i = none := rfl
    rw [hnone]
    simp only [List.map_cons, List.cons_append]
    rw [projEntries_cons_own, projEntries_memberBlock, projEntries_cons_own,
      projEntries_memberBlock, projEntries_cons_own]
    simp only [projEntries, List.filterMap_nil]
    have hstep0 : perIdStep i none assetStr (some a₀) =
        ([], some (ItemStatus.awaitingPath
          { asset := some ((spooled_tempfile.write a₀).seekStart),
            metadata := none })) := by
      simp [perIdStep, buffer_reader, itemDefault]
    simp only [perIdRun, hstep0, List.nil_append]
    rw [perIdRun_asset_block]
    have hstepm : perIdStep i
        (some (ItemStatus.awaitingPath
          { asset := lastBuf as (some ((spooled_tempfile.write a₀).seekStart)),
            metadata := none })) assetMetaStr (some m₀) =
        ([], some (ItemStatus.awaitingPath
          { asset := lastBuf as (some ((spooled_tempfile.write a₀).seekStart)),
            metadata := some ((spooled_tempfile.write m₀).seekStart) })) := by
      simp [perIdStep, buffer_reader]
    simp only [perIdRun, hstepm, List.nil_append]
    rw [perIdRun_meta_block]
    rw [lastBuf_cons_getLast, lastBuf_cons_getLast]
    simp [perIdRun, perIdStep, entryPair, contentReadToEnd,
      SpooledTempFile.readToEnd, SpooledTempFile.seekStart,
      SpooledTempFile.write, spooled_tempfile,
      (by decide : ¬(pathnameStr = assetStr ∨ pathnameStr = assetMetaStr))]

/-- C7 witness: two asset members then two asset.meta members then the
pathname: the emitted contents are the bytes of the last member of each
kind. -/
theorem slot_overwrite_last_write_wins_witness :
    statusOrDefault [] ['i'] =
        ItemStatus.awaitingPath { asset := none, metadata := none } ∧
      (okEntriesFor ['i']
          (runIter
            { entries :=
                (['A'] :: [['B']]).map
                    (fun x => fileItem ['i'] assetStr (some x)) ++
                  ((['M'] :: [['N']]).map
                      (fun x => fileItem ['i'] assetMetaStr (some x)) ++
                    [fileItem ['i'] pathnameStr
                      (some ['A', 's', 's', 'e', 't', 's', '/', 'F'])]),
              paths := [], late := none })).map entryPair =
        [(stripAssets ['A', 's', 's', 'e', 't', 's', '/', 'F'],
            some ((['A'] :: [['B']]).getLast (List.cons_ne_nil ['A'] [['B']]))),
          (stripAssets ['A', 's', 's', 'e', 't', 's', '/', 'F'] ++ metaSuffix,
            some ((['M'] :: [['N']]).getLast (List.cons_ne_nil ['M'] [['N']])))] :=
  ⟨by decide,
    (slot_overwrite_last_write_wins ['i'] []
      { asset := none, metadata := none } ['x']
      ['A', 's', 's', 'e', 't', 's', '/', 'F'] ['A'] ['M'] [['B']] [['N']]
      (by decide)).2.2⟩

/-- Invariant tying an identifier's pending buffers to already-seen
members: every buffer sitting in an AwaitingPath slot reads back the bytes
of some earlier member of the matching kind. -/
def StOK (i : Chars) (st : Option ItemStatus)
    (prev : List (Chars × Option Chars)) : Prop :=
  ∀ parts, st = some (ItemStatus.awaitingPath parts) →
    (∀ t, parts.asset = some t → (assetStr, some t.readToEnd) ∈ prev) ∧
    (∀ t, parts.metadata = some t → (assetMetaStr, some t.readToEnd) ∈ prev)

theorem StOK_append (i : Chars) (st : Option ItemStatus)
    (prev more : List (Chars × Option Chars)) (h : StOK i st prev) :
    StOK i st (prev ++ more) := by
  intro parts hst
  obtain ⟨ha, hm⟩ := h parts hst
  exact ⟨fun t ht => List.mem_append_left _ (ha t ht),
    fun t ht => List.mem_append_left _ (hm t ht)⟩

theorem perIdRun_content_src (i : Chars)
    (es : List (Chars × Option Chars)) :
    ∀ (prev : List (Chars × Option Chars)) (st : Option ItemStatus),
    StOK i st prev → ∀ e, e ∈ perIdRun i st es →
    e.srcId = i ∧ ∃ c, (e.srcKind, c) ∈ prev ++ es ∧
      contentReadToEnd e.content = c := by
  induction es with
  | nil => intro prev st hok e he; simp [perIdRun] at he
  | cons pc rest ih =>
    intro prev st hok e he
    obtain ⟨part, c⟩ := pc
    rw [perIdRun] at he
    rcases List.mem_append.mp he with hin | hin
    · by_cases h1 : part = previewStr
      · simp [perIdStep, h1] at hin
      · by_cases h2 : part = assetStr ∨ part = assetMetaStr
        · rcases st with _ | stv
          · rcases hbr : buffer_reader c with _ | temp <;>
              rcases h2 with h2 | h2 <;>
              · subst h2
                simp [perIdStep, hbr, itemDefault] at hin
          · rcases stv with parts | kp
            · rcases hbr : buffer_reader c with _ | temp <;>
                rcases h2 with h2 | h2 <;>
                · subst h2
                  simp [perIdStep, hbr] at hin
            · rcases h2 with h2 | h2
              · subst h2
                have hin2 : e =
                    { path := kp, content := PackageEntryContent.direct c,
                      srcId := i, srcKind := assetStr } := by
                  simpa [perIdStep] using hin
                subst hin2
                refine ⟨rfl, c, ?_, rfl⟩
                exact List.mem_append_right _ (List.mem_cons_self _ _)
              · subst h2
                have hin2 : e =
                    { path := kp ++ metaSuffix,
                      content := PackageEntryContent.direct c,
                      srcId := i, srcKind := assetMetaStr } := by
                  simpa [perIdStep] using hin
                subst hin2
                refine ⟨rfl, c, ?_, rfl⟩
                exact List.mem_append_right _ (List.mem_cons_self _ _)
            · rcases h2 with h2 | h2 <;>
              · subst h2
                simp [perIdStep] at hin
        · by_cases h3 : part = pathnameStr
          · rcases c with _ | raw
            · simp [perIdStep, h1, h2, h3] at hin
            · rcases st with _ | stv
              · simp [perIdStep, h1, h2, h3] at hin
              · rcases stv with parts | kp
                · obtain ⟨hael, hmel⟩ := hok parts rfl
                  rcases hpa : parts.asset with _ | ab <;>
                    rcases hpm : parts.metadata with _ | mb
                  · simp [perIdStep, h1, h2, h3, hpa, hpm] at hin
                  · have hin2 : e =
                        { path := stripAssets raw ++ metaSuffix,
                          content := PackageEntryContent.buffer mb,
                          srcId := i, srcKind := assetMetaStr } := by
                      simpa [perIdStep, h1, h2, h3, hpa, hpm] using hin
                    subst hin2
                    exact ⟨rfl, some mb.readToEnd,
                      List.mem_append_left _ (hmel mb hpm), rfl⟩
                  · have hin2 : e =
                        { path := stripAssets raw,
                          content := PackageEntryContent.buffer ab,
                          srcId := i, srcKind := assetStr } := by
                      simpa [perIdStep, h1, h2, h3, hpa, hpm] using hin
                    subst hin2
                    exact ⟨rfl, some ab.readToEnd,
                      List.mem_append_left _ (hael ab hpa), rfl⟩
                  · have hin2 : e =
                        { path := stripAssets raw,
                          content := PackageEntryContent.buffer ab,
                          srcId := i, srcKind := assetStr } ∨
                        e =
                          { path := stripAssets raw ++ metaSuffix,
                            content := PackageEntryContent.buffer mb,
                            srcId := i, srcKind := assetMetaStr } := by
                      simpa [perIdStep, h1, h2, h3, hpa, hpm] using hin
                    rcases hin2 with hin2 | hin2 <;> subst hin2
                    · exact ⟨rfl, some ab.readToEnd,
                        List.mem_append_left _ (hael ab hpa), rfl⟩
                    · exact ⟨rfl, some mb.readToEnd,
                        List.mem_append_left _ (hmel mb hpm), rfl⟩
                · simp [perIdStep, h1, h2, h3] at hin
                · simp [perIdStep, h1, h2, h3] at hin
          · simp [perIdStep, h1, h2, h3] at hin
    · have hmain : ∀ st' : Option ItemStatus,
          (perIdStep i st part c).2 = st' →
          StOK i st' (prev ++ [(part, c)]) →
          e.srcId = i ∧ ∃ cc, (e.srcKind, cc) ∈ prev ++ (part, c) :: rest ∧
            contentReadToEnd e.content = cc := by
        intro st' hst' hok'
        obtain ⟨h1, cc, hmem, h3⟩ :=
          ih (prev ++ [(part, c)]) st' (hok') e (hst' ▸ hin)
        refine ⟨h1, cc, ?_, h3⟩
        rw [List.append_assoc] at hmem
        simpa using hmem
      by_cases h1 : part = previewStr
      · exact hmain st (by simp [perIdStep, h1])
          (StOK_append i st prev [(part, c)] hok)
      · by_cases h2 : part = assetStr ∨ part = assetMetaStr
        · rcases st with _ | stv
          · rcases hbr : buffer_reader c with _ | temp
            · refine hmain (some (ItemStatus.awaitingPath
                { asset := none, metadata := none }))
                (by simp [perIdStep, h1, h2, hbr, itemDefault]) ?_
              intro parts hst
              injection hst with hst
              injection hst with hst
              subst hst
              exact ⟨by simp, by simp⟩
            · obtain ⟨bs, hbs⟩ : ∃ bs, c = some bs := by
                cases c with
                | none => simp [buffer_reader] at hbr
                | some bs => exact ⟨bs, rfl⟩
              have hread : temp.readToEnd = bs :=
                readToEnd_buffer_reader bs temp (hbs ▸ hbr)
              rcases h2 with h2 | h2
              · subst h2
                refine hmain (some (ItemStatus.awaitingPath
                    { asset := some temp, metadata := none }))
                  (by simp [perIdStep, hbr, itemDefault]) ?_
                intro parts hst
                injection hst with hst
                injection hst with hst
                subst hst
                refine ⟨fun t ht => ?_, by simp⟩
                simp only [Option.some.injEq] at ht
                subst ht
                rw [hread, hbs]
                exact List.mem_append_right _ (List.mem_singleton.mpr rfl)
              · subst h2
                refine hmain (some (ItemStatus.awaitingPath
                    { asset := none, metadata := some temp }))
                  (by simp [perIdStep, hbr, itemDefault,
                    (by decide : ¬assetMetaStr = assetStr)]) ?_
                intro parts hst
                injection hst with hst
                injection hst with hst
                subst hst
                refine ⟨by simp, fun t ht => ?_⟩
                simp only [Option.some.injEq] at ht
                subst ht
                rw [hread, hbs]
                exact List.mem_append_right _ (List.mem_singleton.mpr rfl)
          · rcases stv with parts | kp
            · rcases hbr : buffer_reader c with _ | temp
              · refine hmain (some (ItemStatus.awaitingPath parts))
                  (by simp [perIdStep, h1, h2, hbr]) ?_
                intro parts' hst
                injection hst with hst
                injection hst with hst
                subst hst
                exact StOK_append i _ prev [(part, c)] hok parts rfl
              · obtain ⟨bs, hbs⟩ : ∃ bs, c = some bs := by
                  cases c with
                  | none => simp [buffer_reader] at hbr
                  | some bs => exact ⟨bs, rfl⟩
                have hread : temp.readToEnd = bs :=
                  readToEnd_buffer_reader bs temp (hbs ▸ hbr)
                obtain ⟨hael, hmel⟩ := hok parts rfl
                rcases h2 with h2 | h2
                · subst h2
                  refine hmain (some (ItemStatus.awaitingPath
                      { asset := some temp, metadata := parts.metadata }))
                    (by simp [perIdStep, hbr]) ?_
                  intro parts' hst
                  injection hst with hst
                  injection hst with hst
                  subst hst
                  refine ⟨fun t ht => ?_,
                    fun t ht => List.mem_append_left _ (hmel t ht)⟩
                  simp only [Option.some.injEq] at ht
                  subst ht
                  rw [hread, hbs]
                  exact List.mem_append_right _ (List.mem_singleton.mpr rfl)
                · subst h2
                  refine hmain (some (ItemStatus.awaitingPath
                      { asset := parts.asset, metadata := some temp }))
                    (by simp [perIdStep, hbr,
                      (by decide : ¬assetMetaStr = assetStr)]) ?_
                  intro parts' hst
                  injection hst with hst
                  injection hst with hst
                  subst hst
                  refine ⟨fun t ht => List.mem_append_left _ (hael t ht),
                    fun t ht => ?_⟩
                  simp only [Option.some.injEq] at ht
                  subst ht
                  rw [hread, hbs]
                  exact List.mem_append_right _ (List.mem_singleton.mpr rfl)
            · refine hmain (some (ItemStatus.knownPath kp)) ?_ (by intro parts hst; simp at hst)
              rcases h2 with h2 | h2 <;>
              · subst h2
                simp [perIdStep]
            · refine hmain (some ItemStatus.error) ?_ (by intro parts hst; simp at hst)
              rcases h2 with h2 | h2 <;>
              · subst h2
                simp [perIdStep]
        · by_cases h3 : part = pathnameStr
          · rcases c with _ | raw
            · exact hmain (some ItemStatus.error)
                (by simp [perIdStep, h1, h2, h3])
                (by intro parts hst; simp at hst)
            · rcases st with _ | stv
              · exact hmain (some (ItemStatus.knownPath (stripAssets raw)))
                  (by simp [perIdStep, h1, h2, h3])
                  (by intro parts hst; simp at hst)
              · rcases stv with parts | kp
                · rcases hpa : parts.asset with _ | ab <;>
                    rcases hpm : parts.metadata with _ | mb <;>
                    exact hmain (some (ItemStatus.knownPath (stripAssets raw)))
                      (by simp [perIdStep, h1, h2, h3, hpa, hpm])
                      (by intro parts' hst; simp at hst)
                · exact hmain (some (ItemStatus.knownPath (stripAssets raw)))
                    (by simp [perIdStep, h1, h2, h3])
                    (by intro parts hst; simp at hst)
                · exact hmain (some (ItemStatus.knownPath (stripAssets raw)))
                    (by simp [perIdStep, h1, h2, h3])
                    (by intro parts hst; simp at hst)
          · exact hmain st (by simp [perIdStep, h1, h2, h3])
              (StOK_append i st prev [(part, c)] hok)

theorem mem_projEntries_item (i part : Chars) (c : Option Chars)
    (l : List RawItem) (h : (part, c) ∈ projEntries i l) :
    ∃ item ∈ l, itemMember item = some (i, part, c) := by
  simp only [projEntries, List.mem_filterMap] at h
  obtain ⟨item, hmem, hm⟩ := h
  cases hit : itemMember item with
  | none => rw [hit] at hm; simp at hm
  | some idpc =>
    obtain ⟨id, p2, c2⟩ := idpc
    rw [hit] at hm
    simp only at hm
    by_cases hid : id = i
    · rw [if_pos hid] at hm
      injection hm with hm
      obtain ⟨hp, hc⟩ := Prod.mk.injEq .. ▸ hm
      exact ⟨item, hmem, by rw [hit, hid, hp, hc]⟩
    · rw [if_neg hid] at hm
      exact absurd hm (by simp)

theorem mem_okEntriesFor_of_ok (i : Chars) (e : PackageEntry)
    (outs : List (Except IterError PackageEntry))
    (h : Except.ok e ∈ outs) (hid : e.srcId = i) :
    e ∈ okEntriesFor i outs := by
  simp only [okEntriesFor, List.mem_filterMap]
  exact ⟨Except.ok e, h, by simp [hid]⟩

/-- C6: every Output Entry the iterator produces reads back, on exhaustion,
exactly the bytes of the corresponding source archive member (same
identifier, same member kind), whether the content went through a spooled
buffer or is a direct pass-through over the still-open entry; and the
spooled buffer contract holds: bytes written in full and then repositioned
to the start read back unchanged, whatever the size relative to the
in-memory ceiling. -/
theorem content_equivalence (l : List RawItem) (e : PackageEntry)
    (he : Except.ok e ∈ runIter { entries := l, paths := [], late := none }) :
    (∃ item ∈ l, itemMember item =
        some (e.srcId, e.srcKind, contentReadToEnd e.content)) ∧
      ∀ bs : Chars, ((spooled_tempfile.write bs).seekStart).readToEnd = bs := by
  constructor
  · rw [runIter_eq_processAll] at he
    have hmem : e ∈ okEntriesFor e.srcId (processAll l []) :=
      mem_okEntriesFor_of_ok e.srcId e _ he rfl
    rw [processAll_localize] at hmem
    have hok : StOK e.srcId (lookupStatus [] e.srcId) [] := by
      intro parts hst
      simp [lookupStatus] at hst
    obtain ⟨-, c, hc, hcr⟩ :=
      perIdRun_content_src e.srcId (projEntries e.srcId l) [] _ hok e hmem
    rw [List.nil_append] at hc
    obtain ⟨item, hmem2, hm⟩ := mem_projEntries_item e.srcId e.srcKind c l hc
    exact ⟨item, hmem2, by rw [hm, hcr]⟩
  · intro bs
    simp [SpooledTempFile.readToEnd, SpooledTempFile.seekStart,
      SpooledTempFile.write, spooled_tempfile]

deriving instance DecidableEq for Except

/-- C6 witness: the single buffered output of an asset-then-pathname run
reads back the asset member's bytes, and a concrete spooled write/seek
round-trips. -/
theorem content_equivalence_witness :
    Except.ok
        ({ path := ['F'],
           content := PackageEntryContent.buffer
             { mode := SpoolMode.inMemory, data := ['x'], pos := 0 },
           srcId := ['i'], srcKind := assetStr } : PackageEntry) ∈
      runIter
        { entries :=
            [fileItem ['i'] assetStr (some ['x']),
              fileItem ['i'] pathnameStr
                (some ['A', 's', 's', 'e', 't', 's', '/', 'F'])],
          paths := [], late := none } ∧
    (∃ item ∈
        [fileItem ['i'] assetStr (some ['x']),
          fileItem ['i'] pathnameStr
            (some ['A', 's', 's', 'e', 't', 's', '/', 'F'])],
        itemMember item =
          some
            (PackageEntry.srcId
              { path := ['F'],
                content := PackageEntryContent.buffer
                  { mode := SpoolMode.inMemory, data := ['x'], pos := 0 },
                srcId := ['i'], srcKind := assetStr },
              PackageEntry.srcKind
                { path := ['F'],
                  content := PackageEntryContent.buffer
                    { mode := SpoolMode.inMemory, data := ['x'], pos := 0 },
                  srcId := ['i'], srcKind := assetStr },
              contentReadToEnd
                (PackageEntry.content
                  { path := ['F'],
                    content := PackageEntryContent.buffer
                      { mode := SpoolMode.inMemory, data := ['x'], pos := 0 },
                    srcId := ['i'], srcKind := assetStr }))) :=
  ⟨by decide,
    (content_equivalence
      [fileItem ['i'] assetStr (some ['x']),
        fileItem ['i'] pathnameStr
          (some ['A', 's', 's', 'e', 't', 's', '/', 'F'])]
      { path := ['F'],
        content := PackageEntryContent.buffer
          { mode := SpoolMode.inMemory, data := ['x'], pos := 0 },
        srcId := ['i'], srcKind := assetStr }
      (by decide)).1⟩

/-- The destination-archive collaborator as seen by main: whether a given
append succeeds, and whether finish succeeds. -/
structure SinkModel where
  appendOk : Chars → Option Chars → Bool
  finishOk : Bool

/-- The observable outcome of the conversion pass in main.rs lines 69-91:
an append failure aborts immediately (with the entries written so far and
the errors reported so far), a finish failure aborts after the loop, and
otherwise the loop completes with the failed flag deciding the exit
status. -/
inductive ConvertOutcome where
  | appendFailed (written : List (Chars × Option Chars))
      (reported : List IterError)
  | finishFailed (written : List (Chars × Option Chars))
      (reported : List IterError)
  | completed (written : List (Chars × Option Chars))
      (reported : List IterError) (failed : Bool)
deriving DecidableEq, Repr

/-- The for-loop of main (main.rs lines 69-83) followed by finish (line 85)
and the failed check (lines 87-89): an error item is reported and sets the
failed flag without stopping the pass; an ok item is appended, and an
append failure aborts the run at once. -/
def convertLoop (sink : SinkModel) :
    List (Except IterError PackageEntry) → List (Chars × Option Chars) →
      List IterError → Bool → ConvertOutcome
  | [], written, reported, failed =>
    if sink.finishOk then ConvertOutcome.completed written reported failed
    else ConvertOutcome.finishFailed written reported
  | Except.error e :: rest, written, reported, _ =>
    convertLoop sink rest written (reported ++ [e]) true
  | Except.ok p :: rest, written, reported, failed =>
    if sink.appendOk p.path (contentReadToEnd p.content) then
      convertLoop sink rest
        (written ++ [(p.path, contentReadToEnd p.content)]) reported failed
    else ConvertOutcome.appendFailed written reported

/-- Running the conversion pass over the iterator's items. -/
def convert (sink : SinkModel)
    (items : List (Except IterError PackageEntry)) : ConvertOutcome :=
  convertLoop sink items [] [] false

/-- Whether the process exits with non-zero status for a given outcome. -/
def exitNonZero : ConvertOutcome → Bool
  | ConvertOutcome.completed _ _ failed => failed
  | _ => true

/-- Whether an iterator item is an error. -/
def isErrItem : Except IterError PackageEntry → Bool
  | Except.error _ => true
  | Except.ok _ => false

/-- The (path, content) pairs of the successful items, in order. -/
def okWritten (items : List (Except IterError PackageEntry)) :
    List (Chars × Option Chars) :=
  items.filterMap fun x =>
    match x with
    | Except.ok p => some (p.path, contentReadToEnd p.content)
    | Except.error _ => none

/-- The errors among the items, in order. -/
def errorsOf (items : List (Except IterError PackageEntry)) :
    List IterError :=
  items.filterMap fun x =>
    match x with
    | Except.error e => some e
    | Except.ok _ => none

theorem convertLoop_all_ok (sink : SinkModel)
    (hA : ∀ pa c, sink.appendOk pa c = true) (hF : sink.finishOk = true) :
    ∀ (items : List (Except IterError PackageEntry)) written reported failed,
    convertLoop sink items written reported failed =
      ConvertOutcome.completed (written ++ okWritten items)
        (reported ++ errorsOf items) (failed || items.any isErrItem) := by
  intro items
  induction items with
  | nil => intro written reported failed; simp [convertLoop, hF, okWritten, errorsOf]
  | cons x rest ih =>
    intro written reported failed
    cases x with
    | error e =>
      simp only [convertLoop]
      rw [ih]
      simp [okWritten, errorsOf, isErrItem]
    | ok p =>
      simp only [convertLoop, hA, if_true]
      rw [ih]
      simp [okWritten, errorsOf, isErrItem]

theorem convertLoop_abort (sink : SinkModel) (p : PackageEntry)
    (post : List (Except IterError PackageEntry))
    (hfail : sink.appendOk p.path (contentReadToEnd p.content) = false) :
    ∀ (pre : List (Except IterError PackageEntry)),
    (∀ q, Except.ok q ∈ pre →
      sink.appendOk q.path (contentReadToEnd q.content) = true) →
    ∀ written reported failed,
    convertLoop sink (pre ++ Except.ok p :: post) written reported failed =
      ConvertOutcome.appendFailed (written ++ okWritten pre)
        (reported ++ errorsOf pre) := by
  intro pre
  induction pre with
  | nil =>
    intro _ written reported failed
    simp [convertLoop, hfail, okWritten, errorsOf]
  | cons x rest ih =>
    intro hpre written reported failed
    cases x with
    | error e =>
      simp only [List.cons_append, convertLoop, List.append_eq]
      rw [ih (fun q hq => hpre q (List.mem_cons_of_mem _ hq))]
      simp [okWritten, errorsOf]
    | ok q =>
      have hq : sink.appendOk q.path (contentReadToEnd q.content) = true :=
        hpre q (List.mem_cons_self _ _)
      simp only [List.cons_append, convertLoop, hq, if_true, List.append_eq]
      rw [ih (fun r hr => hpre r (List.mem_cons_of_mem _ hr))]
      simp [okWritten, errorsOf]

/-- C8: when every append and the finish succeed, the pass reports each
error item individually (in order), writes every successfully produced
entry (in order), completes the archive, and exits non-zero exactly when
some item was an error; whereas a failing append aborts the run at that
point, with only the preceding successful entries written. -/
theorem orchestrator_error_policy (sink : SinkModel)
    (items pre post : List (Except IterError PackageEntry))
    (p : PackageEntry) :
    ((∀ pa c, sink.appendOk pa c = true) → sink.finishOk = true →
      convert sink items =
          ConvertOutcome.completed (okWritten items) (errorsOf items)
            (items.any isErrItem) ∧
        exitNonZero (convert sink items) = items.any isErrItem) ∧
    ((∀ q, Except.ok q ∈ pre →
        sink.appendOk q.path (contentReadToEnd q.content) = true) →
      sink.appendOk p.path (contentReadToEnd p.content) = false →
      convert sink (pre ++ Except.ok p :: post) =
        ConvertOutcome.appendFailed (okWritten pre) (errorsOf pre)) := by
  constructor
  · intro hA hF
    have h := convertLoop_all_ok sink hA hF items [] [] false
    rw [convert, h]
    simp [exitNonZero]
  · intro hpre hfail
    have h := convertLoop_abort sink p post hfail pre hpre [] [] false
    rw [convert, h]
    simp

/-- C8 witness: with an always-succeeding sink, a run containing one error
and one ok item writes the ok entry, reports the error, and exits
non-zero; the abort clause fires for an always-failing sink. -/
theorem orchestrator_error_policy_witness :
    convert { appendOk := fun _ _ => true, finishOk := true }
        [Except.error IterError.header,
          Except.ok
            { path := ['F'], content := PackageEntryContent.direct (some ['x']),
              srcId := ['i'], srcKind := assetStr }] =
        ConvertOutcome.completed
          (okWritten
            [Except.error IterError.header,
              Except.ok
                { path := ['F'],
                  content := PackageEntryContent.direct (some ['x']),
                  srcId := ['i'], srcKind := assetStr }])
          (errorsOf
            [Except.error IterError.header,
              Except.ok
                { path := ['F'],
                  content := PackageEntryContent.direct (some ['x']),
                  srcId := ['i'], srcKind := assetStr }])
          ([Except.error IterError.header,
              Except.ok
                { path := ['F'],
                  content := PackageEntryContent.direct (some ['x']),
                  srcId := ['i'], srcKind := assetStr }].any isErrItem) ∧
      convert { appendOk := fun _ _ => false, finishOk := true }
          [Except.ok
            { path := ['F'], content := PackageEntryContent.direct (some ['x']),
              srcId := ['i'], srcKind := assetStr }] =
        ConvertOutcome.appendFailed (okWritten []) (errorsOf []) :=
  ⟨((orchestrator_error_policy
      { appendOk := fun _ _ => true, finishOk := true }
      [Except.error IterError.header,
        Except.ok
          { path := ['F'], content := PackageEntryContent.direct (some ['x']),
            srcId := ['i'], srcKind := assetStr }] [] []
      { path := ['F'], content := PackageEntryContent.direct (some ['x']),
        srcId := ['i'], srcKind := assetStr }).1
      (fun _ _ => rfl) rfl).1,
    (orchestrator_error_policy
      { appendOk := fun _ _ => false, finishOk := true }
      [] []
      [Except.ok
        { path := ['F'], content := PackageEntryContent.direct (some ['x']),
          srcId := ['i'], srcKind := assetStr }].tail
      { path := ['F'], content := PackageEntryContent.direct (some ['x']),
        srcId := ['i'], srcKind := assetStr }).2
      (fun q hq => absurd hq (List.not_mem_nil _)) rfl⟩
